import Mathlib

/-!
# Verification of the quarto-extension-helpers completion engine

A shallow embedding, over `List Char`, of the context-parsing and
completion-synthesis engine of the repository (src/shortcode-provider.ts,
src/spec-provider.ts, src/acronyms.ts, and the spec-loader cache), together
with proofs and refutations of the frozen specification claims.

Strings are modelled as `List Char`; JavaScript string offsets are `Nat`
except where the source's arithmetic can go negative (`tokenStart`), which is
modelled as `Int`.  JavaScript's whitespace class is modelled by the ASCII
whitespace characters that can actually occur in the engine's inputs.
-/

set_option maxRecDepth 10000

/-- The `{` character, kept abstract so concrete text can be written without
literal braces. -/
def lbrace : Char := Char.ofNat 123

/-- The `}` character. -/
def rbrace : Char := Char.ofNat 125

/-- JavaScript whitespace (`\s`, `trim`, `split(/\s+/)`), restricted to the
ASCII whitespace characters relevant to the engine. -/
def jsSpace (c : Char) : Bool := c = ' ' || c = '\t' || c = '\n' || c = '\r'

/-- JavaScript `\w` word characters: ASCII letters, digits and underscore. -/
def isWordChar (c : Char) : Bool :=
  (('a' ≤ c && c ≤ 'z') || ('A' ≤ c && c ≤ 'Z') || ('0' ≤ c && c ≤ '9') || c = '_')

/-- A single or double quote character, the class `["']`. -/
def isQuote (c : Char) : Bool := c = '"' || c = '\x27'

/-- `s.substring(a, b)` for `a ≤ b` (the way the Locator calls it). -/
def jsSubstring (s : List Char) (a b : Nat) : List Char := (s.take b).drop a

/-- `s.substring(a, b)` in full generality: JavaScript swaps the two
arguments when `a > b`, which happens in the providers when the full-line
marker search lands past the cursor. -/
def jsSubstringSwap (s : List Char) (a b : Nat) : List Char :=
  if a ≤ b then (s.take b).drop a else (s.take a).drop b

/-- `s.trimStart()` over the modelled whitespace class. -/
def jsTrimStart (s : List Char) : List Char := s.dropWhile jsSpace

/-- Trailing-whitespace removal, the second half of `s.trim()`. -/
def jsTrimEnd (s : List Char) : List Char := ((s.reverse).dropWhile jsSpace).reverse

/-- `s.trim()` over the modelled whitespace class. -/
def jsTrim (s : List Char) : List Char := jsTrimEnd (jsTrimStart s)

/-- `s.indexOf(pat)`: index of the leftmost occurrence of `pat` in `s`. -/
def firstOccur? (pat : List Char) : List Char → Option Nat
  | [] => if pat.isEmpty then some 0 else none
  | c :: rest =>
    if pat.isPrefixOf (c :: rest) then some 0 else (firstOccur? pat rest).map (· + 1)

/-- `s.lastIndexOf(pat)`: index of the rightmost occurrence of `pat` in `s`. -/
def lastOccur? (pat : List Char) : List Char → Option Nat
  | [] => if pat.isEmpty then some 0 else none
  | c :: rest =>
    match lastOccur? pat rest with
    | some i => some (i + 1)
    | none => if pat.isPrefixOf (c :: rest) then some 0 else none

/-- `s.includes(pat)`. -/
def jsIncludes (pat s : List Char) : Bool := (firstOccur? pat s).isSome

/-- What the user is completing; `primary` stands for the per-directive
primary-value completion types (`'icon'`, `'file'`, ...) of the source. -/
inductive CompletionType where
  | attributeName
  | attributeValue
  | primary
  deriving DecidableEq

/-- The `ShortcodeContext` record of src/types.ts. -/
structure ShortcodeContext where
  fullContent : List Char
  contentStart : Nat
  completionType : CompletionType
  typedText : List Char
  tokenStart : Int
  attributeName : Option (List Char) := none
  hasSpaceBeforeEnd : Bool
  needsLeadingSpace : Bool
  deriving DecidableEq

/-- The opening marker `{{< name` built by `getShortcodeContext`. -/
def mkMarker (shortcodeName : List Char) : List Char :=
  lbrace :: lbrace :: '<' :: ' ' :: shortcodeName

/-- The closing marker `>}}`. -/
def closerMark : List Char := ['>', rbrace, rbrace]

/-- src/shortcode-provider.ts `getShortcodeContext`: locate the enclosing
`{{< name ... >}}` instance around the cursor on one line. -/
def getShortcodeContext (lineText : List Char) (cursorPos : Nat)
    (shortcodeName : List Char) : Option ShortcodeContext :=
  let marker := mkMarker shortcodeName
  let beforeCursor := lineText.take cursorPos
  match lastOccur? marker beforeCursor with
  | none => none
  | some shortcodeStart =>
    -- Check that we haven't closed this shortcode before cursor
    let afterShortcodeStart := beforeCursor.drop shortcodeStart
    if jsIncludes closerMark afterShortcodeStart then none
    else
      -- Find >}} after cursor
      let afterCursor := lineText.drop cursorPos
      match firstOccur? closerMark afterCursor with
      | none => none
      | some shortcodeEndRelative =>
        let textBeforeEnd := afterCursor.take shortcodeEndRelative
        let hasSpaceBeforeEnd :=
          decide (0 < shortcodeEndRelative) && decide (textBeforeEnd.getLast? = some ' ')
        let markerEnd := shortcodeStart + marker.length
        let shortcodeEnd := cursorPos + shortcodeEndRelative
        let fullContent := jsTrim (jsSubstring lineText markerEnd shortcodeEnd)
        -- the `while` loop skipping spaces, with its `contentStart > cursorPos` clamp
        let contentStart :=
          min (markerEnd + ((jsSubstring lineText markerEnd cursorPos).takeWhile
            (fun c => c = ' ')).length) cursorPos
        let contentBeforeCursor := jsSubstring lineText markerEnd cursorPos
        let hasSpaceAfterName := decide (lineText.get? markerEnd = some ' ')
        some
          { fullContent := fullContent
            contentStart := contentStart
            completionType := .attributeName
            typedText := jsTrim contentBeforeCursor
            tokenStart := (contentStart : Int)
            attributeName := none
            hasSpaceBeforeEnd := hasSpaceBeforeEnd
            needsLeadingSpace := !hasSpaceAfterName && decide (jsTrim contentBeforeCursor = []) }

/-- `pat` occurs in `s` starting at index `i`. -/
def occursAt (pat s : List Char) (i : Nat) : Prop := pat <+: s.drop i

instance occursAtDecidable (pat s : List Char) (i : Nat) : Decidable (occursAt pat s i) :=
  inferInstanceAs (Decidable (pat <+: s.drop i))

/-- An instance of the directive `{{< name ... >}}` on a line: an occurrence
of the opening marker at `s` together with the first occurrence of the
closing marker `>}}` after it, at `e`; the instance spans `[s, e + 3)`. -/
def InstanceAt (line name : List Char) (s e : Nat) : Prop :=
  occursAt (mkMarker name) line s ∧ occursAt closerMark line e ∧ s < e ∧
    ∀ p, s ≤ p → p < e → ¬ occursAt closerMark line p

/-- The match of `/(\\w+)=([^\\s]*)$/` against `s`, returning the captured
identifier and the captured partial value.  The regex scans start positions
left to right; at a start the greedy `\\w+` run must be followed by `=` (a
shorter identifier is never followed by `=`, since the run is maximal), and
`[^\\s]*$` forces everything after that `=` to be non-whitespace up to the
end of the string. -/
def matchAttrValue : List Char → Option (List Char × List Char)
  | [] => none
  | c :: rest =>
    if isWordChar c then
      match (c :: rest).dropWhile isWordChar with
      | d :: tail =>
        if d = '=' && tail.all (fun x => !jsSpace x) then
          some ((c :: rest).takeWhile isWordChar, tail)
        else matchAttrValue rest
      | [] => matchAttrValue rest
    else matchAttrValue rest

/-- `.replace(/^["\x27]/, \x27\x27)`: remove one leading quote if present. -/
def stripLeadingQuote (s : List Char) : List Char :=
  match s with
  | [] => []
  | c :: rest => if isQuote c then rest else c :: rest

/-- The `AttributeValueContext` record of src/types.ts. -/
structure AttributeValueContext where
  attributeName : List Char
  typedValue : List Char
  tokenStart : Int
  deriving DecidableEq

/-- src/shortcode-provider.ts `parseAttributeValueContext`. -/
def parseAttributeValueContext (contentBeforeCursor : List Char) (cursorPos : Nat) :
    Option AttributeValueContext :=
  match matchAttrValue contentBeforeCursor with
  | none => none
  | some (ident, rawValue) =>
    let typedValue := stripLeadingQuote rawValue
    some { attributeName := ident
           typedValue := typedValue
           tokenStart := (cursorPos : Int) - typedValue.length }

/-- src/shortcode-provider.ts `analyzeShortcodeContext`: the classifier for
directives with a primary (positional) value. -/
def analyzeShortcodeContext (context : ShortcodeContext) (contentBeforeCursor : List Char)
    (cursorPos : Nat) (hasSpaceAfterName : Bool) (hasPrimary : List Char → Bool)
    (primaryCompletionType : CompletionType) : ShortcodeContext :=
  match parseAttributeValueContext contentBeforeCursor cursorPos with
  | some attrValueCtx =>
    { context with
      completionType := .attributeValue
      typedText := attrValueCtx.typedValue
      tokenStart := attrValueCtx.tokenStart
      attributeName := some attrValueCtx.attributeName
      needsLeadingSpace := false }
  | none =>
    let trimmedContent := jsTrim contentBeforeCursor
    if hasPrimary trimmedContent then
      -- After primary value, suggest attributes
      match lastOccur? [' '] contentBeforeCursor with
      | some lastSpaceIndex =>
        let typedText := contentBeforeCursor.drop (lastSpaceIndex + 1)
        { context with
          completionType := .attributeName
          typedText := typedText
          tokenStart := (cursorPos : Int) - typedText.length
          needsLeadingSpace := false }
      | none =>
        { context with
          completionType := .attributeName
          typedText := trimmedContent
          tokenStart := (cursorPos : Int) - trimmedContent.length
          needsLeadingSpace := false }
    else
      -- No primary value yet, suggest it
      { context with
        completionType := primaryCompletionType
        typedText := trimmedContent
        tokenStart := (context.contentStart : Int)
        needsLeadingSpace := !hasSpaceAfterName }

/-- src/shortcode-provider.ts `analyzeAttributeOnlyContext`: the classifier
for directives that only take attributes. -/
def analyzeAttributeOnlyContext (context : ShortcodeContext) (contentBeforeCursor : List Char)
    (cursorPos : Nat) (hasSpaceAfterName : Bool) : ShortcodeContext :=
  match parseAttributeValueContext contentBeforeCursor cursorPos with
  | some attrValueCtx =>
    { context with
      completionType := .attributeValue
      typedText := attrValueCtx.typedValue
      tokenStart := attrValueCtx.tokenStart
      attributeName := some attrValueCtx.attributeName
      needsLeadingSpace := false }
  | none =>
    match lastOccur? [' '] contentBeforeCursor with
    | some lastSpaceIndex =>
      let typedText := contentBeforeCursor.drop (lastSpaceIndex + 1)
      { context with
        completionType := .attributeName
        typedText := typedText
        tokenStart := (cursorPos : Int) - typedText.length
        needsLeadingSpace := !hasSpaceAfterName && decide (jsTrim contentBeforeCursor = []) }
    | none =>
      let typedText := jsTrim contentBeforeCursor
      { context with
        completionType := .attributeName
        typedText := typedText
        tokenStart := (cursorPos : Int) - typedText.length
        needsLeadingSpace := !hasSpaceAfterName && decide (jsTrim contentBeforeCursor = []) }

/-- src/spec-provider.ts `hasPrimaryValue`: whether the trimmed content
already carries a first positional token that is not an attribute. -/
def hasPrimaryValue (attributeNames : List (List Char)) (hasArguments : Bool)
    (content : List Char) : Bool :=
  if content.isEmpty || !hasArguments then false
  else
    let parts := (content.splitOnP jsSpace).filter (fun p => !p.isEmpty && !p.contains '=')
    match parts with
    | [] => false
    | potentialValue :: _ =>
      !(attributeNames.contains potentialValue) && decide (0 < potentialValue.length)

/-- The `markerEnd` the providers recompute after the Locator succeeds
(src/spec-provider.ts line 64, `lineText.lastIndexOf(marker) + marker.length`):
the last occurrence of the marker on the WHOLE line — not necessarily the
enclosing instance — plus the marker length.  The `none` branch mirrors
JavaScript's `-1 + marker.length`; it is unreachable when the Locator has
succeeded, since the marker then occurs before the cursor. -/
def markerEndOf (line : List Char) (name : List Char) : Nat :=
  match lastOccur? (mkMarker name) line with
  | some i => i + (mkMarker name).length
  | none => (mkMarker name).length - 1

/-- The locate-and-classify pipeline of the completion providers
(src/spec-provider.ts `provideCompletionItems`, lines 58-79): locate the
enclosing instance, recompute `markerEnd` with a full-line `lastIndexOf`,
take `lineText.substring(markerEnd, position.character)` — which swaps its
arguments when the full-line marker lies past the cursor — read
`hasSpaceAfterName` at that `markerEnd`, and run the matching classifier. -/
def locateAndClassify (line : List Char) (cursor : Nat) (name : List Char)
    (hasArguments : Bool) (hasPrimary : List Char → Bool) : Option ShortcodeContext :=
  match getShortcodeContext line cursor name with
  | none => none
  | some baseContext =>
    let markerEnd := markerEndOf line name
    let contentBeforeCursor := jsSubstringSwap line markerEnd cursor
    let hasSpaceAfterName := decide (line.get? markerEnd = some ' ')
    some
      (if hasArguments then
        analyzeShortcodeContext baseContext contentBeforeCursor cursor hasSpaceAfterName
          hasPrimary .primary
      else
        analyzeAttributeOnlyContext baseContext contentBeforeCursor cursor hasSpaceAfterName)

/-- The text immediately before the cursor matches `<identifier>=<partial>`
with no intervening whitespace (the claim-level reading of C2). -/
def HasAttrSuffix (s : List Char) : Prop :=
  ∃ pre ident partialVal, s = pre ++ ident ++ '=' :: partialVal ∧ ident ≠ [] ∧
    ident.all isWordChar = true ∧ partialVal.all (fun c => !jsSpace c) = true

/-- The parts of a `vscode.CompletionItem` the engine computes that the
claims are about (the replacement range, covered separately by C3 as
`[tokenStart, cursorOffset)`, and the documentation are omitted). -/
structure CompletionItem where
  label : List Char
  detail : Option (List Char)
  sortText : List Char
  insertText : List Char
  deriving DecidableEq

/-- Lexicographic strict comparison of JavaScript strings, the order the
host applies to `sortText`. -/
def strLt : List Char → List Char → Bool
  | [], [] => false
  | [], _ :: _ => true
  | _ :: _, [] => false
  | a :: as, b :: bs => if a < b then true else if a = b then strLt as bs else false

/-- Stable insertion of an item into a list ranked by `sortText`. -/
def insertRanked (x : CompletionItem) : List CompletionItem → List CompletionItem
  | [] => [x]
  | y :: ys => if strLt x.sortText y.sortText then x :: y :: ys else y :: insertRanked x ys

/-- The presentation order of a candidate list: a stable sort by `sortText`
(how the host ranks the emitted array). -/
def rankBySortText (l : List CompletionItem) : List CompletionItem :=
  l.foldl (fun acc x => insertRanked x acc) []

/-- src/shortcode-provider.ts `createEnumValueCompletions`. -/
def createEnumValueCompletions (values : List (List Char)) (context : ShortcodeContext)
    (defaultValue : Option (List Char)) : List CompletionItem :=
  let typedText := context.typedText.map Char.toLower
  let trailingSpace := if context.hasSpaceBeforeEnd then [] else [' ']
  values.filterMap (fun value =>
    if !typedText.isEmpty && !(typedText.isPrefixOf (value.map Char.toLower)) then none
    else
      some { label := value
             detail := if some value = defaultValue then some (("(default)").toList) else none
             sortText := (if some value = defaultValue then '0' else '1') :: value
             insertText := value ++ trailingSpace })

/-- Modelled from the spec: the candidate order its words describe for the
Enum source — the case-insensitive prefix-filtered values with the default
first and the declared order otherwise preserved among the non-defaults. -/
def specEnumRanking (values : List (List Char)) (typedLower : List Char)
    (defaultValue : Option (List Char)) : List (List Char) :=
  let kept := values.filter
    (fun v => typedLower.isEmpty || typedLower.isPrefixOf (v.map Char.toLower))
  kept.filter (fun v => some v = defaultValue) ++
    kept.filter (fun v => some v ≠ defaultValue)

/-- A neutral context (nothing typed, no space before the closing marker)
used to exercise the synthesizers at concrete inputs. -/
def ctx0 : ShortcodeContext :=
  { fullContent := []
    contentStart := 0
    completionType := .attributeName
    typedText := []
    tokenStart := 0
    attributeName := none
    hasSpaceBeforeEnd := false
    needsLeadingSpace := false }

/-- The `BrandColor` record of src/types.ts: a name and its resolved value. -/
structure BrandColor where
  name : List Char
  value : List Char
  deriving DecidableEq

/-- src/shortcode-provider.ts `CSS_COLOR_VALUES`. -/
def CSS_COLOR_VALUES : List (List Char) :=
  [("red").toList, ("blue").toList, ("green").toList, ("yellow").toList,
   ("orange").toList, ("purple").toList, ("pink").toList, ("black").toList,
   ("white").toList, ("gray").toList, ("cyan").toList, ("magenta").toList]

/-- The brand-color loop of src/shortcode-provider.ts
`createColorValueCompletions`: inserts the resolved value, not the name. -/
def brandColorItems (context : ShortcodeContext) (brandColors : List BrandColor) :
    List CompletionItem :=
  let typedText := context.typedText.map Char.toLower
  let trailingSpace := if context.hasSpaceBeforeEnd then [] else [' ']
  brandColors.filterMap (fun bc =>
    if !typedText.isEmpty && !(typedText.isPrefixOf (bc.name.map Char.toLower)) then none
    else
      some { label := bc.name
             detail := some (("Brand: ").toList ++ bc.value)
             sortText := '0' :: bc.name
             insertText := bc.value ++ trailingSpace })

/-- The CSS-color loop of src/shortcode-provider.ts
`createColorValueCompletions`. -/
def cssColorItems (context : ShortcodeContext) : List CompletionItem :=
  let typedText := context.typedText.map Char.toLower
  let trailingSpace := if context.hasSpaceBeforeEnd then [] else [' ']
  CSS_COLOR_VALUES.filterMap (fun color =>
    if !typedText.isEmpty && !(typedText.isPrefixOf (color.map Char.toLower)) then none
    else
      some { label := color
             detail := some (("CSS color").toList)
             sortText := '1' :: color
             insertText := color ++ trailingSpace })

/-- src/shortcode-provider.ts `createColorValueCompletions`: brand colors
first, then the fixed CSS colors. -/
def createColorValueCompletions (context : ShortcodeContext)
    (brandColors : List BrandColor) : List CompletionItem :=
  brandColorItems context brandColors ++ cssColorItems context

/-- A directory entry as returned by the injected listing capability. -/
structure DirEntry where
  name : List Char
  isDirectory : Bool
  deriving DecidableEq

/-- Node `path.extname` for a plain entry name: the substring from the last
dot, unless that dot is the leading character or there is none. -/
def jsExtname (name : List Char) : List Char :=
  match lastOccur? ['.'] name with
  | none => []
  | some 0 => []
  | some i => name.drop i

/-- The filter text of src/spec-provider.ts `createFileCompletions`: the part
of the typed text after the last path separator, lower-cased. -/
def fileFilterText (context : ShortcodeContext) : List Char :=
  (match lastOccur? ['/'] context.typedText with
   | some i => context.typedText.drop (i + 1)
   | none => context.typedText).map Char.toLower

/-- The kept directory prefix of src/spec-provider.ts
`createFileCompletions`: typed text up to and including the last separator. -/
def filePathPre (context : ShortcodeContext) : List Char :=
  match lastOccur? ['/'] context.typedText with
  | some i => context.typedText.take (i + 1)
  | none => []

/-- The extension allow-list check of `createFileCompletions`: rejects a
non-directory entry when an allow-list is present, non-empty, and no listed
extension matches the entry name, case-insensitively. -/
def extensionRejects (extensions : Option (List (List Char))) (entry : DirEntry) : Bool :=
  !entry.isDirectory &&
    (match extensions with
     | none => false
     | some exts => !exts.isEmpty &&
         !(exts.any (fun e => e.map Char.toLower = (jsExtname entry.name).map Char.toLower)))

/-- src/spec-provider.ts `createFileCompletions`, applied to an injected
directory listing: hidden entries are skipped, the typed filter applies
case-insensitively, the extension allow-list applies to non-directories,
directories get sort key `0`+name and a trailing separator, files get
`1`+name. -/
def createFileCompletions (entries : List DirEntry) (context : ShortcodeContext)
    (extensions : Option (List (List Char))) : List CompletionItem :=
  let filterText := fileFilterText context
  let leadingSpace := if context.needsLeadingSpace then [' '] else []
  let trailingSpace := if context.hasSpaceBeforeEnd then [] else [' ']
  entries.filterMap (fun entry =>
    if entry.name.head? = some '.' then none
    else if !filterText.isEmpty && !(filterText.isPrefixOf (entry.name.map Char.toLower))
      then none
    else if extensionRejects extensions entry then none
    else
      some { label := entry.name
             detail := some (if entry.isDirectory then ("Directory").toList else ("File").toList)
             sortText := (if entry.isDirectory then '0' else '1') :: entry.name
             insertText :=
               if entry.isDirectory then
                 leadingSpace ++ filePathPre context ++ entry.name ++ ['/']
               else
                 leadingSpace ++ filePathPre context ++ entry.name ++ trailingSpace })

/-- A JavaScript `Map` modelled as an insertion-ordered association list
(no duplicate keys arise from the operations below). -/
def mapLookup {V : Type _} : List (List Char × V) → List Char → Option V
  | [], _ => none
  | (k, v) :: rest, key => if k = key then some v else mapLookup rest key

/-- `Map.delete`: remove the entry with the given key. -/
def mapDelete {V : Type _} (m : List (List Char × V)) (key : List Char) :
    List (List Char × V) :=
  m.filter (fun p => !decide (p.1 = key))

/-- `Map.set`: update an existing key in place, else append at the end
(insertion order). -/
def mapSet {V : Type _} (m : List (List Char × V)) (key : List Char) (v : V) :
    List (List Char × V) :=
  if m.any (fun p => decide (p.1 = key)) then
    m.map (fun p => if p.1 = key then (key, v) else p)
  else m ++ [(key, v)]

/-- The spec-loader `addToCache`: evict the oldest entry when at capacity —
guarded by the truthiness check `if (firstKey)`, which skips eviction when
the oldest key is the empty string — then insert. -/
def addToCache {V : Type _} (cache : List (List Char × V)) (key : List Char)
    (value : V) (maxSize : Nat) : List (List Char × V) :=
  let cache1 :=
    if cache.length ≥ maxSize then
      match cache.head? with
      | some (firstKey, _) => if firstKey = [] then cache else mapDelete cache firstKey
      | none => cache
    else cache
  mapSet cache1 key value

/-- A sequence of insertions into an initially empty bounded cache. -/
def insertAll {V : Type _} (pairs : List (List Char × V)) (maxSize : Nat) :
    List (List Char × V) :=
  pairs.foldl (fun c p => addToCache c p.1 p.2 maxSize) []

/-- The capture `([^"'\n]+)` at the start of `u`: the maximal non-empty run
of characters that are neither quotes nor newlines. -/
def captureRun (u : List Char) : Option (List Char) :=
  let r := u.takeWhile (fun c => !isQuote c && !decide (c = '\n'))
  if r.isEmpty then none else some r

/-- `["']?` then the capture, with the regex trying the quote first. -/
def tryQuoteCapture (t : List Char) : Option (List Char) :=
  (match t with
   | q :: t2 => if isQuote q then captureRun t2 else none
   | [] => none) <|> captureRun t

/-- Backtracking over the greedy `\s*`: try consuming `k` whitespace
characters, longest first. -/
def backtrackWs : Nat → List Char → Option (List Char)
  | 0, rest => tryQuoteCapture rest
  | k + 1, rest => tryQuoteCapture (rest.drop (k + 1)) <|> backtrackWs k rest

/-- The tail of the unanchored value pattern after `key:`. -/
def matchAfterKey (rest : List Char) : Option (List Char) :=
  backtrackWs (rest.takeWhile jsSpace).length rest

/-- The unanchored search for the value regex of
src/spec-provider.ts `parseFrontmatterValues`:
`key` then `:` then `\s*["']?([^"'\n]+)["']?`, leftmost match, returning the
capture. -/
def searchValue (key : List Char) : List Char → Option (List Char)
  | [] => none
  | c :: rest =>
    (if (key ++ [':']).isPrefixOf (c :: rest) then
        matchAfterKey ((c :: rest).drop (key.length + 1))
      else none) <|> searchValue key rest

/-- The line-anchored test `^key:\s*$` against an already-trimmed line. -/
def headerMatches (kp trimmed : List Char) : Bool :=
  (kp ++ [':']).isPrefixOf trimmed && (trimmed.drop (kp.length + 1)).all jsSpace

/-- The loop state of src/spec-provider.ts `parseFrontmatterValues`. -/
structure FMState where
  sectionDepth : Nat
  inTarget : Bool
  currentIndent : Nat
  stopped : Bool
  values : List (List Char)
  deriving DecidableEq

/-- One line of the `parseFrontmatterValues` loop: the section-header check
runs first (the inner loop reduces to testing the part at the current
depth), then the list-item / section-exit check runs against the updated
state; `break` is modelled by the `stopped` flag. -/
def frontStep (keyParts : List (List Char)) (valueKey : List Char)
    (st : FMState) (line : List Char) : FMState :=
  if st.stopped then st
  else
    let trimmed := jsTrimStart line
    let indent := line.length - trimmed.length
    let st1 :=
      if st.sectionDepth < keyParts.length &&
          headerMatches (keyParts.getD st.sectionDepth []) trimmed then
        if st.sectionDepth + 1 = keyParts.length then
          { st with
            sectionDepth := st.sectionDepth + 1
            inTarget := true
            currentIndent := indent }
        else { st with sectionDepth := st.sectionDepth + 1 }
      else st
    if st1.inTarget = true ∧ indent > st1.currentIndent then
      match searchValue valueKey trimmed with
      | some cap => { st1 with values := st1.values ++ [jsTrim cap] }
      | none => st1
    else if st1.inTarget = true ∧ indent ≤ st1.currentIndent ∧ trimmed ≠ [] then
      { st1 with stopped := true }
    else st1

/-- src/spec-provider.ts `parseFrontmatterValues`: extract the named field
of the list items under a dot-separated section path of the leading
frontmatter block. -/
def parseFrontmatterValues (text : List Char) (key : List Char)
    (valuePath : Option (List Char)) : List (List Char) :=
  if (("---").toList).isPrefixOf text then
    match firstOccur? (("---").toList) (text.drop 3) with
    | none => []
    | some rel =>
      let frontmatter := (text.take (rel + 3)).drop 3
      let keyParts := key.splitOn '.'
      let valueKey := valuePath.getD (("shortname").toList)
      let lines := frontmatter.splitOn '\n'
      (lines.foldl (frontStep keyParts valueKey)
        { sectionDepth := 0, inTarget := false, currentIndent := 0, stopped := false,
          values := [] }).values
  else []

/-- The largest prefix `k` of the whitespace run of `u` such that position
`k` is the end of the string or is followed by a newline: the greedy `\s*$`
of a `/m` regex. -/
def greedyWsBoundary (u : List Char) : Option Nat :=
  ((List.range ((u.takeWhile jsSpace).length + 1)).reverse).find?
    (fun k => decide (u.drop k = []) || decide (u.get? k = some '\n'))

/-- Try `name:\s*$` at the current position, returning the text after the
match (the `match.index + match[0].length` arithmetic of the source). -/
def tryNameAt (name t : List Char) : Option (List Char) :=
  if (name ++ [':']).isPrefixOf t then
    (greedyWsBoundary (t.drop (name.length + 1))).map
      (fun k => t.drop (name.length + 1 + k))
  else none

/-- `frontmatter.match(/^name:\s*$/m)`: scan the anchored positions (start
of string or after a newline) left to right. -/
def afterName (name : List Char) : List Char → Bool → Option (List Char)
  | [], _ => none
  | c :: rest, atStart =>
    (if atStart then tryNameAt name (c :: rest) else none) <|>
      afterName name rest (decide (c = '\n'))

/-- Try `\s+keys:\s*$` at an anchored position: the greedy `\s+` (which can
cross newlines) backtracks from the whole whitespace run down to one
character. -/
def tryKeysAt (t : List Char) : Option (List Char) :=
  (((List.range ((t.takeWhile jsSpace).length + 1)).reverse).filter
      (fun k => decide (1 ≤ k))).findSome?
    (fun k =>
      if (("keys:").toList).isPrefixOf (t.drop k) then
        (greedyWsBoundary (t.drop (k + 5))).map (fun k2 => t.drop (k + 5 + k2))
      else none)

/-- `afterSection.match(/^\s+keys:\s*$/m)`. -/
def afterKeys : List Char → Bool → Option (List Char)
  | [], _ => none
  | c :: rest, atStart =>
    (if atStart then tryKeysAt (c :: rest) else none) <|>
      afterKeys rest (decide (c = '\n'))

/-- An acronym definition from the YAML frontmatter (src/acronyms.ts). -/
structure AcronymDefinition where
  shortname : List Char
  longname : List Char
  deriving DecidableEq

/-- The `Partial<AcronymDefinition>` being accumulated, with JavaScript
truthiness: a field counts as present when it is set and non-empty. -/
def pushIfComplete (c : Option (List Char) × Option (List Char))
    (acc : List AcronymDefinition) : List AcronymDefinition :=
  match c with
  | (some s, some l) => if !s.isEmpty && !l.isEmpty then acc ++ [⟨s, l⟩] else acc
  | _ => acc

/-- The loop-break test of `parseAcronymsFromFrontmatter`:
`/^\S/` or `/^[ ]{2}\S/`. -/
def isBreakLine (line : List Char) : Bool :=
  (match line.head? with
   | some c => !jsSpace c
   | none => false) ||
  (match line with
   | c0 :: c1 :: c2 :: _ => c0 = ' ' && c1 = ' ' && !jsSpace c2
   | _ => false)

/-- The anchored tail `\s*["']?([^"'\n]+)["']?\s*$`: after the maximal
capture, the remainder must be an optional quote followed by whitespace
(shorter captures cannot succeed where the maximal one fails, because the
given-back characters precede a non-whitespace quote). -/
def captureTailAnchored (u : List Char) : Option (List Char) :=
  let r := u.takeWhile (fun c => !isQuote c && !decide (c = '\n'))
  if r.isEmpty then none
  else
    let rest := u.drop r.length
    if (match rest with
        | [] => true
        | c :: r2 => if isQuote c then r2.all jsSpace else (c :: r2).all jsSpace) then
      some r
    else none

/-- `["']?` then the anchored capture, quote first. -/
def tryQuoteCaptureAnchored (t : List Char) : Option (List Char) :=
  (match t with
   | q :: t2 => if isQuote q then captureTailAnchored t2 else none
   | [] => none) <|> captureTailAnchored t

/-- Backtracking over the greedy `\s*` of the anchored tail. -/
def backtrackWsAnchored : Nat → List Char → Option (List Char)
  | 0, rest => tryQuoteCaptureAnchored rest
  | k + 1, rest => tryQuoteCaptureAnchored (rest.drop (k + 1)) <|> backtrackWsAnchored k rest

/-- The anchored value tail after `shortname:` / `longname:`. -/
def matchValueTail (rest : List Char) : Option (List Char) :=
  backtrackWsAnchored (rest.takeWhile jsSpace).length rest

/-- `/^\s{4,}-\s+shortname:\s*["']?([^"'\n]+)["']?\s*$/`: at least four
leading whitespace characters (the greedy quantifier must consume the whole
run to reach the dash), a dash, at least one whitespace, `shortname:`, then
the value tail. -/
def listItemMatch (line : List Char) : Option (List Char) :=
  let ws1 := (line.takeWhile jsSpace).length
  if ws1 < 4 then none
  else
    match line.drop ws1 with
    | c :: after =>
      if c = '-' then
        let ws2 := (after.takeWhile jsSpace).length
        if ws2 < 1 then none
        else if (("shortname:").toList).isPrefixOf (after.drop ws2) then
          matchValueTail ((after.drop ws2).drop 10)
        else none
      else none
    | [] => none

/-- `/^\s{4,}-\s*$/`: a bare list-item dash. -/
def dashOnlyMatch (line : List Char) : Bool :=
  let ws1 := (line.takeWhile jsSpace).length
  decide (4 ≤ ws1) &&
    (match line.drop ws1 with
     | c :: after => c = '-' && after.all jsSpace
     | [] => false)

/-- `/^\s{6,}fieldname:\s*["']?([^"'\n]+)["']?\s*$/` for the continuation
lines `shortname:` and `longname:`. -/
def contMatch (fieldName : List Char) (line : List Char) : Option (List Char) :=
  let ws1 := (line.takeWhile jsSpace).length
  if ws1 < 6 then none
  else if (fieldName ++ [':']).isPrefixOf (line.drop ws1) then
    matchValueTail ((line.drop ws1).drop (fieldName.length + 1))
  else none

/-- The loop state of `parseAcronymsFromFrontmatter`. -/
structure AcrState where
  current : Option (List Char) × Option (List Char)
  acronyms : List AcronymDefinition
  stopped : Bool

/-- One line of the `parseAcronymsFromFrontmatter` loop. -/
def acrStep (st : AcrState) (line : List Char) : AcrState :=
  if st.stopped then st
  else if isBreakLine line then { st with stopped := true }
  else
    match listItemMatch line with
    | some cap =>
      { st with acronyms := pushIfComplete st.current st.acronyms
                current := (some (jsTrim cap), none) }
    | none =>
      if dashOnlyMatch line then
        { st with acronyms := pushIfComplete st.current st.acronyms
                  current := (none, none) }
      else
        match contMatch (("shortname").toList) line with
        | some cap => { st with current := (some (jsTrim cap), st.current.2) }
        | none =>
          match contMatch (("longname").toList) line with
          | some cap => { st with current := (st.current.1, some (jsTrim cap)) }
          | none => st

/-- src/acronyms.ts `parseAcronymsFromFrontmatter`. -/
def parseAcronymsFromFrontmatter (text : List Char) : List AcronymDefinition :=
  if (("---").toList).isPrefixOf text then
    match firstOccur? (("---").toList) (text.drop 3) with
    | none => []
    | some rel =>
      let frontmatter := (text.take (rel + 3)).drop 3
      match afterName (("acronyms").toList) frontmatter true with
      | none => []
      | some afterSection =>
        match afterKeys afterSection true with
        | none => []
        | some afterKeysText =>
          let lines := afterKeysText.splitOn '\n'
          let final := lines.foldl acrStep
            { current := (none, none), acronyms := [], stopped := false }
          pushIfComplete final.current final.acronyms
  else []

/-- The frontmatter document of the C6 example: `acronyms.keys` with the
entries API and HTML, followed by the sibling key `filters` at the same
indentation as `acronyms`. -/
def c6doc : List Char :=
  ("---\nacronyms:\n  keys:\n    - shortname: API\n      longname: Application Programming Interface\n    - shortname: HTML\n      longname: HyperText Markup Language\nfilters:\n  - something\n---\n\nText body\n").toList

/-- A frontmatter document whose single list item carries a `shortname` but
no `longname`. -/
def c10doc : List Char :=
  ("---\nacronyms:\n  keys:\n    - shortname: solo\n---\n").toList

example : getShortcodeContext ("\x7b\x7b< fa x >\x7d\x7d").toList 8 ("fa").toList ≠ none := by
  decide

example : getShortcodeContext ("\x7b\x7b< fa x >\x7d\x7d").toList 0 ("fa").toList = none := by
  decide

example :
    getShortcodeContext ("\x7b\x7b< fa a >\x7d\x7d \x7b\x7b< fa b >\x7d\x7d").toList 13
      ("fa").toList = none := by
  decide

/-- With a second same-named instance after the cursor, the full-line
marker search plus the JS substring swap feed the classifier the text
between the cursor and the later marker: `typedText` extends past the
cursor and `needsLeadingSpace` is set although the enclosing marker at
offset 6 is followed by a space. -/
example :
    (locateAndClassify ("\x7b\x7b< fa size >\x7d\x7d \x7b\x7b< fa>\x7d\x7d").toList 7
        ("fa").toList true (hasPrimaryValue [("size").toList] true)).map
      (fun ctx => (ctx.typedText, ctx.needsLeadingSpace)) =
    some (("size >\x7d\x7d \x7b\x7b< fa").toList, true) := by
  decide

theorem lastOccur?_sound {pat s : List Char} {i : Nat} (h : lastOccur? pat s = some i) :
    pat <+: s.drop i := by
  induction s generalizing i with
  | nil =>
    simp only [lastOccur?] at h
    split at h
    · next hp =>
      obtain rfl : (0 : Nat) = i := by simpa using h
      simpa using List.isEmpty_iff.mp hp
    · exact absurd h (by simp)
  | cons c rest ih =>
    cases hr : lastOccur? pat rest with
    | some j =>
      simp only [lastOccur?, hr] at h
      obtain rfl : j + 1 = i := by simpa using h
      simpa using ih hr
    | none =>
      simp only [lastOccur?, hr] at h
      split at h
      · next hp =>
        obtain rfl : (0 : Nat) = i := by simpa using h
        simpa using List.isPrefixOf_iff_prefix.mp hp
      · exact absurd h (by simp)

theorem firstOccur?_sound {pat s : List Char} {i : Nat} (h : firstOccur? pat s = some i) :
    pat <+: s.drop i := by
  induction s generalizing i with
  | nil =>
    simp only [firstOccur?] at h
    split at h
    · next hp =>
      obtain rfl : (0 : Nat) = i := by simpa using h
      simpa using List.isEmpty_iff.mp hp
    · exact absurd h (by simp)
  | cons c rest ih =>
    simp only [firstOccur?] at h
    split at h
    · next hp =>
      obtain rfl : (0 : Nat) = i := by simpa using h
      simpa using List.isPrefixOf_iff_prefix.mp hp
    · next hp =>
      cases hr : firstOccur? pat rest with
      | some j =>
        rw [hr] at h
        obtain rfl : j + 1 = i := by simpa using h
        simpa using ih hr
      | none => rw [hr] at h; exact absurd h (by simp)

theorem firstOccur?_eq_none {pat s : List Char} (h : firstOccur? pat s = none)
    (hpat : pat ≠ []) : ∀ j, ¬ pat <+: s.drop j := by
  induction s with
  | nil =>
    intro j hj
    exact hpat (List.prefix_nil.mp (by simpa using hj))
  | cons c rest ih =>
    simp only [firstOccur?] at h
    split at h
    · exact absurd h (by simp)
    · next hp =>
      intro j hj
      match j with
      | 0 => exact hp (List.isPrefixOf_iff_prefix.mpr (by simpa using hj))
      | j' + 1 =>
        have hr : firstOccur? pat rest = none := by
          cases hr : firstOccur? pat rest with
          | none => rfl
          | some k => rw [hr] at h; exact absurd h (by simp)
        exact ih hr j' (by simpa using hj)

theorem prefix_take_of_le {pat v : List Char} {m : Nat} (h : pat <+: v)
    (hm : pat.length ≤ m) : pat <+: v.take m := by
  rw [List.prefix_iff_eq_take] at h ⊢
  rw [List.take_take, Nat.min_eq_left hm, ← h]

/-- C1: for every line of text and cursor offset such that the cursor lies
outside all instances of the named directive on that line (before the first
instance, after the last instance, or strictly between two disjoint
instances — i.e. outside the span `[s, e+3)` of every instance), the Context
Locator `getShortcodeContext` returns `none` (the embedding is total, so no
exception is possible). -/
theorem claim_C1_locator_outside_none (line name : List Char) (cursor : Nat)
    (houtside : ∀ s e, InstanceAt line name s e → cursor ≤ s ∨ e + 3 ≤ cursor) :
    getShortcodeContext line cursor name = none := by
  cases h1 : lastOccur? (mkMarker name) (line.take cursor) with
  | none => simp [getShortcodeContext, h1]
  | some s =>
    cases h2 : jsIncludes closerMark ((line.take cursor).drop s) with
    | true => simp [getShortcodeContext, h1, h2]
    | false =>
      cases h3 : firstOccur? closerMark (line.drop cursor) with
      | none => simp [getShortcodeContext, h1, h2, h3]
      | some rel =>
        exfalso
        -- the marker occurrence found before the cursor
        have hm : mkMarker name <+: (line.take cursor).drop s := lastOccur?_sound h1
        have hmlen : (mkMarker name).length = 4 + name.length := by simp [mkMarker]; omega
        have hfitlen : (mkMarker name).length ≤ (line.take cursor).length - s := by
          have := hm.length_le
          simpa using this
        have hfit : s + (mkMarker name).length ≤ cursor := by
          have h4 : 0 < (mkMarker name).length := by omega
          have h5 : (line.take cursor).length = min cursor line.length := by simp
          omega
        have hm' : mkMarker name <+: line.drop s := by
          have heq : (line.take cursor).drop s = (line.drop s).take (cursor - s) :=
            List.drop_take ..
          rw [heq] at hm
          have ht := List.take_prefix (cursor - s) (line.drop s)
          exact hm.trans ht
        -- the closer occurrence found after the cursor
        have hclose : closerMark <+: line.drop (cursor + rel) := by
          have h6 := firstOccur?_sound h3
          rwa [List.drop_drop] at h6
        -- the first closer at or after the marker start
        have hex : ∃ e, s ≤ e ∧ occursAt closerMark line e :=
          ⟨cursor + rel, by omega, hclose⟩
        obtain ⟨hse₀, hocc₀⟩ := Nat.find_spec hex
        have hse : s < Nat.find hex := by
          rcases Nat.lt_or_ge s (Nat.find hex) with h | h
          · exact h
          · exfalso
            have heq : Nat.find hex = s := by omega
            rw [heq] at hocc₀
            obtain ⟨t1, ht1⟩ := hm'
            obtain ⟨t2, ht2⟩ := hocc₀
            have hh1 : (line.drop s).head? = some lbrace := by
              rw [← ht1]; simp [mkMarker]
            have hh2 : (line.drop s).head? = some '>' := by
              rw [← ht2]; simp [closerMark]
            rw [hh1] at hh2
            have hbad : lbrace = '>' := by simpa using hh2
            exact absurd hbad (by decide)
        have hinst : InstanceAt line name s (Nat.find hex) :=
          ⟨hm', hocc₀, hse, fun p hsp hpe hocc =>
            Nat.find_min hex hpe ⟨hsp, hocc⟩⟩
        rcases houtside s (Nat.find hex) hinst with hcs | hce
        · omega
        · -- a full closer occurrence inside [s, cursor): contradicts the includes-check
          have hnone : firstOccur? closerMark ((line.take cursor).drop s) = none := by
            cases hfo : firstOccur? closerMark ((line.take cursor).drop s) with
            | none => rfl
            | some k => rw [jsIncludes, hfo] at h2; exact absurd h2 (by simp)
          have happ := firstOccur?_eq_none hnone (by simp [closerMark]) (Nat.find hex - s)
          apply happ
          have heq1 : ((line.take cursor).drop s).drop (Nat.find hex - s) =
              (line.take cursor).drop (Nat.find hex) := by
            rw [List.drop_drop]
            congr 1
            omega
          have heq2 : (line.take cursor).drop (Nat.find hex) =
              (line.drop (Nat.find hex)).take (cursor - Nat.find hex) :=
            List.drop_take ..
          rw [heq1, heq2]
          exact prefix_take_of_le hocc₀ (by simp [closerMark]; omega)

/-- C1 witness: at a concrete line with the cursor before the first
instance, the hypotheses hold and the locator returns `none`. -/
theorem claim_C1_witness :
    (∀ s e, InstanceAt ("\x7b\x7b< fa x >\x7d\x7d").toList ("fa").toList s e →
      0 ≤ s ∨ e + 3 ≤ 0) ∧
    getShortcodeContext ("\x7b\x7b< fa x >\x7d\x7d").toList 0 ("fa").toList = none :=
  ⟨fun s _ _ => Or.inl (Nat.zero_le s),
    claim_C1_locator_outside_none _ _ 0 (fun s _ _ => Or.inl (Nat.zero_le s))⟩

theorem dropWhile_append_all {p : Char → Bool} {a b : List Char} (ha : a.all p = true) :
    (a ++ b).dropWhile p = b.dropWhile p := by
  induction a with
  | nil => rfl
  | cons x xs ih =>
    simp only [List.all_cons, Bool.and_eq_true] at ha
    simp [List.dropWhile_cons, ha.1, ih ha.2]

theorem takeWhile_append_all {p : Char → Bool} {a b : List Char} (ha : a.all p = true) :
    (a ++ b).takeWhile p = a ++ b.takeWhile p := by
  induction a with
  | nil => rfl
  | cons x xs ih =>
    simp only [List.all_cons, Bool.and_eq_true] at ha
    simp [List.takeWhile_cons, ha.1, ih ha.2]

theorem matchAttrValue_sound {s ident partialVal : List Char}
    (h : matchAttrValue s = some (ident, partialVal)) :
    ∃ pre, s = pre ++ ident ++ '=' :: partialVal ∧ ident ≠ [] ∧
      ident.all isWordChar = true ∧ partialVal.all (fun c => !jsSpace c) = true := by
  induction s with
  | nil => simp [matchAttrValue] at h
  | cons c rest ih =>
    by_cases hw : isWordChar c
    · cases hd : (c :: rest).dropWhile isWordChar with
      | nil =>
        simp only [matchAttrValue, hw, if_true, hd] at h
        obtain ⟨pre, hpre, hne, hword, hns⟩ := ih h
        exact ⟨c :: pre, by simp [hpre], hne, hword, hns⟩
      | cons d tail =>
        simp only [matchAttrValue, hw, if_true, hd] at h
        by_cases hcond : (d = '=' && tail.all fun x => !jsSpace x) = true
        · rw [if_pos hcond] at h
          simp only [Option.some.injEq, Prod.mk.injEq] at h
          obtain ⟨h1, h2⟩ := h
          simp only [Bool.and_eq_true, decide_eq_true_eq] at hcond
          obtain ⟨rfl, hall⟩ := hcond
          subst h1
          subst h2
          refine ⟨[], ?_, ?_, List.all_takeWhile, hall⟩
          · have hsplit := List.takeWhile_append_dropWhile isWordChar (c :: rest)
            rw [hd] at hsplit
            simpa using hsplit.symm
          · simp [List.takeWhile_cons, hw]
        · rw [if_neg hcond] at h
          obtain ⟨pre, hpre, hne, hword, hns⟩ := ih h
          exact ⟨c :: pre, by simp [hpre], hne, hword, hns⟩
    · simp only [matchAttrValue, hw, if_false] at h
      obtain ⟨pre, hpre, hne, hword, hns⟩ := ih h
      exact ⟨c :: pre, by simp [hpre], hne, hword, hns⟩

theorem matchAttrValue_none {s : List Char} (h : matchAttrValue s = none) :
    ¬ HasAttrSuffix s := by
  induction s with
  | nil =>
    rintro ⟨pre, ident, partialVal, heq, hne, -, -⟩
    cases ident with
    | nil => exact hne rfl
    | cons a as => simp at heq
  | cons c rest ih =>
    rintro ⟨pre, ident, partialVal, heq, hne, hword, hns⟩
    cases pre with
    | nil =>
      -- the decomposition starts at the head: the branch would have succeeded
      cases ident with
      | nil => exact hne rfl
      | cons a as =>
        simp only [List.nil_append, List.cons_append] at heq
        obtain ⟨rfl, hreq⟩ := List.cons.inj heq
        have hwa : isWordChar c = true := by
          simp only [List.all_cons, Bool.and_eq_true] at hword
          exact hword.1
        have hasall : as.all isWordChar = true := by
          simp only [List.all_cons, Bool.and_eq_true] at hword
          exact hword.2
        have hweq : isWordChar '=' = false := by decide
        have hdrop : (c :: rest).dropWhile isWordChar = '=' :: partialVal := by
          have hre : (c :: rest) = (c :: as) ++ '=' :: partialVal := by simp [hreq]
          rw [hre, dropWhile_append_all (by simp [hwa, hasall])]
          simp [List.dropWhile_cons, hweq]
        have hres : matchAttrValue (c :: rest) =
            some ((c :: rest).takeWhile isWordChar, partialVal) := by
          simp [matchAttrValue, hwa, hdrop, hns]
        rw [hres] at h
        exact absurd h (by simp)
    | cons c' pre' =>
      simp only [List.cons_append] at heq
      obtain ⟨rfl, hreq⟩ := List.cons.inj heq
      have hsub : HasAttrSuffix rest := ⟨pre', ident, partialVal, hreq, hne, hword, hns⟩
      by_cases hw : isWordChar c
      · cases hd : (c :: rest).dropWhile isWordChar with
        | nil =>
          have h2 : matchAttrValue rest = none := by
            simpa [matchAttrValue, hw, hd] using h
          exact ih h2 hsub
        | cons d tail =>
          by_cases hcond : (d = '=' && tail.all fun x => !jsSpace x) = true
          · have hres : matchAttrValue (c :: rest) =
                some ((c :: rest).takeWhile isWordChar, tail) := by
              simp [matchAttrValue, hw, hd, hcond]
            rw [hres] at h
            exact absurd h (by simp)
          · have h2 : matchAttrValue rest = none := by
              simpa [matchAttrValue, hw, hd, hcond] using h
            exact ih h2 hsub
      · have h2 : matchAttrValue rest = none := by
          simpa [matchAttrValue, hw] using h
        exact ih h2 hsub

/-- C2: for every content-before-cursor string whose suffix matches
`<identifier>=<partial>` with no intervening whitespace, the classifier
produces an attribute-value context: the identifier becomes `attributeName`,
one leading quote is stripped from the partial value, and
`tokenStart = cursorOffset - len(partial)` for the quote-stripped partial;
for strings with no such suffix it produces no attribute-value context. -/
theorem claim_C2_attr_value_context (s : List Char) (cursorPos : Nat) :
    (HasAttrSuffix s →
      ∃ pre ident partialVal, s = pre ++ ident ++ '=' :: partialVal ∧ ident ≠ [] ∧
        ident.all isWordChar = true ∧ partialVal.all (fun c => !jsSpace c) = true ∧
        parseAttributeValueContext s cursorPos =
          some { attributeName := ident
                 typedValue := stripLeadingQuote partialVal
                 tokenStart := (cursorPos : Int) - (stripLeadingQuote partialVal).length }) ∧
    (¬ HasAttrSuffix s → parseAttributeValueContext s cursorPos = none) := by
  constructor
  · intro hsuf
    cases hm : matchAttrValue s with
    | none => exact absurd hsuf (matchAttrValue_none hm)
    | some iv =>
      obtain ⟨ident, rawValue⟩ := iv
      obtain ⟨pre, hpre, hne, hword, hns⟩ := matchAttrValue_sound hm
      exact ⟨pre, ident, rawValue, hpre, hne, hword, hns, by
        simp [parseAttributeValueContext, hm]⟩
  · intro hnot
    cases hm : matchAttrValue s with
    | none => simp [parseAttributeValueContext, hm]
    | some iv =>
      obtain ⟨ident, rawValue⟩ := iv
      obtain ⟨pre, hpre, hne, hword, hns⟩ := matchAttrValue_sound hm
      exact absurd ⟨pre, ident, rawValue, hpre, hne, hword, hns⟩ hnot

/-- C2 witness: `color=re` at cursor 8 matches the pattern and yields the
attribute-value context with `attributeName = color`, `typedValue = re`,
`tokenStart = 6`. -/
theorem claim_C2_witness :
    HasAttrSuffix ("color=re").toList ∧
    ∃ pre ident partialVal,
      ("color=re").toList = pre ++ ident ++ '=' :: partialVal ∧ ident ≠ [] ∧
      ident.all isWordChar = true ∧ partialVal.all (fun c => !jsSpace c) = true ∧
      parseAttributeValueContext ("color=re").toList 8 =
        some { attributeName := ident
               typedValue := stripLeadingQuote partialVal
               tokenStart := (8 : Int) - (stripLeadingQuote partialVal).length } := by
  have hsuf : HasAttrSuffix ("color=re").toList :=
    ⟨[], ("color").toList, ("re").toList, by decide, by decide, by decide, by decide⟩
  exact ⟨hsuf, (claim_C2_attr_value_context ("color=re").toList 8).1 hsuf⟩

theorem jsTrimEnd_pre (s : List Char) : jsTrimEnd s <+: s := by
  have h : s.reverse.dropWhile jsSpace <:+ s.reverse := List.dropWhile_suffix jsSpace
  have h2 := List.reverse_prefix.mpr h
  simpa [jsTrimEnd] using h2

theorem stripLeadingQuote_suffix (s : List Char) : stripLeadingQuote s <:+ s := by
  cases s with
  | nil => exact List.nil_suffix
  | cons c t =>
    rw [stripLeadingQuote]
    split
    · exact List.suffix_cons c t
    · exact List.suffix_refl _

theorem exists_take_suffix {t d line : List Char} {cursor : Nat}
    (h1 : t <+: d) (h2 : d <:+ line.take cursor) :
    ∃ p, p ≤ cursor ∧ t <:+ line.take p := by
  obtain ⟨a, ha⟩ := h2
  obtain ⟨b, hb⟩ := h1
  have hple : a.length + t.length ≤ cursor := by
    have hl1 : (line.take cursor).length ≤ cursor := by simp
    have hl2 : a.length + d.length = (line.take cursor).length := by
      rw [← ha]; simp
    have hl3 : t.length ≤ d.length := by rw [← hb]; simp
    omega
  refine ⟨a.length + t.length, hple, ?_⟩
  have h3 : (line.take cursor).take (a.length + t.length) = a ++ t := by
    rw [← ha, ← hb, List.take_append_eq_append_take]
    have e1 : a.take (a.length + t.length) = a := List.take_of_length_le (by omega)
    have e2 : a.length + t.length - a.length = t.length := by omega
    rw [e1, e2, List.take_append_eq_append_take]
    simp
  have h4 : (line.take cursor).take (a.length + t.length) = line.take (a.length + t.length) := by
    rw [List.take_take, Nat.min_eq_left hple]
  rw [← h4, h3]
  exact List.suffix_append a t

theorem parseAttrValue_some_spec {content : List Char} {cursorPos : Nat}
    {avc : AttributeValueContext}
    (h : parseAttributeValueContext content cursorPos = some avc) :
    ∃ ident rawValue, matchAttrValue content = some (ident, rawValue) ∧
      avc = { attributeName := ident
              typedValue := stripLeadingQuote rawValue
              tokenStart := (cursorPos : Int) - (stripLeadingQuote rawValue).length } := by
  cases hm : matchAttrValue content with
  | none =>
    simp only [parseAttributeValueContext, hm] at h
    exact absurd h (by simp)
  | some iv =>
    obtain ⟨i, r⟩ := iv
    refine ⟨i, r, rfl, ?_⟩
    simp only [parseAttributeValueContext, hm, Option.some.injEq] at h
    exact h.symm

theorem jsTrim_eq_nil_all {s : List Char} (h : jsTrim s = []) : s.all jsSpace = true := by
  have h1 : (jsTrimStart s).reverse.dropWhile jsSpace = [] := by
    have := congrArg List.reverse h
    simpa [jsTrim, jsTrimEnd] using this
  have h2 : ∀ x ∈ (jsTrimStart s).reverse, jsSpace x = true :=
    List.dropWhile_eq_nil_iff.mp h1
  have h3 : (jsTrimStart s).all jsSpace = true := by
    rw [List.all_eq_true]
    intro x hx
    exact h2 x (List.mem_reverse.mpr hx)
  have h4 : s = s.takeWhile jsSpace ++ jsTrimStart s :=
    (List.takeWhile_append_dropWhile jsSpace s).symm
  rw [h4, List.all_append]
  simp [List.all_takeWhile, h3]

theorem all_drop_of_all {s : List Char} {p : Char → Bool} {n : Nat}
    (h : s.all p = true) : (s.drop n).all p = true := by
  rw [List.all_eq_true] at h ⊢
  intro x hx
  exact h x (List.mem_of_mem_drop hx)

theorem getShortcodeContext_contentStart_le {line : List Char} {cursor : Nat}
    {name : List Char} {base : ShortcodeContext}
    (h : getShortcodeContext line cursor name = some base) :
    base.contentStart ≤ cursor := by
  cases h1 : lastOccur? (mkMarker name) (line.take cursor) with
  | none => simp [getShortcodeContext, h1] at h
  | some s =>
    cases h2 : jsIncludes closerMark ((line.take cursor).drop s) with
    | true => simp [getShortcodeContext, h1, h2] at h
    | false =>
      cases h3 : firstOccur? closerMark (line.drop cursor) with
      | none => simp [getShortcodeContext, h1, h2, h3] at h
      | some rel =>
        simp only [getShortcodeContext, h1, h2, Bool.false_eq_true, if_false, h3,
          Option.some.injEq] at h
        rw [← h]
        exact Nat.min_le_right _ _

theorem analyzeShortcode_cases (base : ShortcodeContext) (content : List Char)
    (cursor : Nat) (hs : Bool) (hp : List Char → Bool) (pt : CompletionType) :
    (∃ ident rawValue pre, matchAttrValue content = some (ident, rawValue) ∧
        content = pre ++ ident ++ '=' :: rawValue ∧
        analyzeShortcodeContext base content cursor hs hp pt =
          { base with
            completionType := .attributeValue
            typedText := stripLeadingQuote rawValue
            tokenStart := (cursor : Int) - (stripLeadingQuote rawValue).length
            attributeName := some ident
            needsLeadingSpace := false }) ∨
    (∃ i, lastOccur? [' '] content = some i ∧
        analyzeShortcodeContext base content cursor hs hp pt =
          { base with
            completionType := .attributeName
            typedText := content.drop (i + 1)
            tokenStart := (cursor : Int) - (content.drop (i + 1)).length
            needsLeadingSpace := false }) ∨
    (analyzeShortcodeContext base content cursor hs hp pt =
        { base with
          completionType := .attributeName
          typedText := jsTrim content
          tokenStart := (cursor : Int) - (jsTrim content).length
          needsLeadingSpace := false }) ∨
    (analyzeShortcodeContext base content cursor hs hp pt =
        { base with
          completionType := pt
          typedText := jsTrim content
          tokenStart := (base.contentStart : Int)
          needsLeadingSpace := !hs }) := by
  cases hpav : parseAttributeValueContext content cursor with
  | some avc =>
    obtain ⟨ident, rawValue, hm, havc⟩ := parseAttrValue_some_spec hpav
    obtain ⟨pre, hpre, -, -, -⟩ := matchAttrValue_sound hm
    subst havc
    exact Or.inl ⟨ident, rawValue, pre, hm, hpre, by
      simp [analyzeShortcodeContext, hpav]⟩
  | none =>
    by_cases hhp : hp (jsTrim content) = true
    · cases hso : lastOccur? [' '] content with
      | some i =>
        refine Or.inr (Or.inl ⟨i, rfl, ?_⟩)
        simp [analyzeShortcodeContext, hpav, hhp, hso]
      | none =>
        exact Or.inr (Or.inr (Or.inl (by
          simp [analyzeShortcodeContext, hpav, hhp, hso])))
    · exact Or.inr (Or.inr (Or.inr (by
        simp [analyzeShortcodeContext, hpav, hhp])))

theorem analyzeAttrOnly_cases (base : ShortcodeContext) (content : List Char)
    (cursor : Nat) (hs : Bool) :
    (∃ ident rawValue pre, matchAttrValue content = some (ident, rawValue) ∧
        content = pre ++ ident ++ '=' :: rawValue ∧
        analyzeAttributeOnlyContext base content cursor hs =
          { base with
            completionType := .attributeValue
            typedText := stripLeadingQuote rawValue
            tokenStart := (cursor : Int) - (stripLeadingQuote rawValue).length
            attributeName := some ident
            needsLeadingSpace := false }) ∨
    (∃ i, lastOccur? [' '] content = some i ∧
        analyzeAttributeOnlyContext base content cursor hs =
          { base with
            completionType := .attributeName
            typedText := content.drop (i + 1)
            tokenStart := (cursor : Int) - (content.drop (i + 1)).length
            needsLeadingSpace := !hs && decide (jsTrim content = []) }) ∨
    (analyzeAttributeOnlyContext base content cursor hs =
        { base with
          completionType := .attributeName
          typedText := jsTrim content
          tokenStart := (cursor : Int) - (jsTrim content).length
          needsLeadingSpace := !hs && decide (jsTrim content = []) }) := by
  cases hpav : parseAttributeValueContext content cursor with
  | some avc =>
    obtain ⟨ident, rawValue, hm, havc⟩ := parseAttrValue_some_spec hpav
    obtain ⟨pre, hpre, -, -, -⟩ := matchAttrValue_sound hm
    subst havc
    exact Or.inl ⟨ident, rawValue, pre, hm, hpre, by
      simp [analyzeAttributeOnlyContext, hpav]⟩
  | none =>
    cases hso : lastOccur? [' '] content with
    | some i =>
      refine Or.inr (Or.inl ⟨i, rfl, ?_⟩)
      simp [analyzeAttributeOnlyContext, hpav, hso]
    | none =>
      exact Or.inr (Or.inr (by
        simp [analyzeAttributeOnlyContext, hpav, hso]))

/-- C3 counterexample: on the line `{{< fa size >}}` with `size` a declared
attribute name and the cursor just after the space following `size`, the
classifier takes the primary branch and produces `typedText = size`, which is
not a contiguous substring of the line ending exactly at the cursor offset
(the character before the cursor is a space). -/
theorem claim_C3_counterexample :
    (locateAndClassify ("\x7b\x7b< fa size >\x7d\x7d").toList 12 ("fa").toList true
        (hasPrimaryValue [("size").toList] true)).map
      (fun ctx => (ctx.typedText,
        decide (ctx.typedText <:+ (("\x7b\x7b< fa size >\x7d\x7d").toList.take 12)))) =
    some (("size").toList, false) := by
  decide

/-- C3 (amended): every context produced by the locate-and-classify pipeline
satisfies `tokenStart ≤ cursorOffset`; and whenever the `markerEnd` the
provider recomputes with its full-line `lastIndexOf` lies at or before the
cursor — in particular whenever the cursor's enclosing instance is the last
occurrence of the marker on the line — `typedText` is a contiguous substring
of the line ending at or before the cursor offset (exactly at the cursor in
the attribute-value branch and the after-space attribute-name branch; the
branches that read the trimmed content can end earlier when whitespace
precedes the cursor).  The guard is necessary: when a later same-named
instance follows the cursor, JS `substring` swaps its arguments and feeds
the classifier text after the cursor, so `typedText` can extend past it. -/
theorem claim_C3_amended (line name : List Char) (cursor : Nat) (hasArguments : Bool)
    (hasPrimary : List Char → Bool) (ctx : ShortcodeContext)
    (h : locateAndClassify line cursor name hasArguments hasPrimary = some ctx) :
    ctx.tokenStart ≤ (cursor : Int) ∧
      (markerEndOf line name ≤ cursor →
        ∃ p, p ≤ cursor ∧ ctx.typedText <:+ line.take p) := by
  cases hg : getShortcodeContext line cursor name with
  | none => simp [locateAndClassify, hg] at h
  | some base =>
    simp only [locateAndClassify, hg, Option.some.injEq] at h
    have hbase : (base.contentStart : Int) ≤ (cursor : Int) := by
      exact_mod_cast Int.ofNat_le.mpr (getShortcodeContext_contentStart_le hg)
    have hcontent : markerEndOf line name ≤ cursor →
        jsSubstringSwap line (markerEndOf line name) cursor <:+ line.take cursor := by
      intro hme
      rw [jsSubstringSwap, if_pos hme]
      exact List.drop_suffix _ _
    have htrim : markerEndOf line name ≤ cursor → ∃ p, p ≤ cursor ∧
        jsTrim (jsSubstringSwap line (markerEndOf line name) cursor) <:+ line.take p := by
      intro hme
      refine exists_take_suffix (jsTrimEnd_pre _) ?_
      exact (List.dropWhile_suffix jsSpace).trans (hcontent hme)
    cases hasArguments with
    | true =>
      simp only [if_true] at h
      rcases analyzeShortcode_cases base
          (jsSubstringSwap line (markerEndOf line name) cursor) cursor
          (decide (line.get? (markerEndOf line name) = some ' ')) hasPrimary
          .primary with
        ⟨ident, rawValue, pre, hm, hpre, hctx⟩ | ⟨i, hso, hctx⟩ | hctx | hctx <;>
        rw [hctx] at h <;> rw [← h]
      · constructor
        · simp only []
          omega
        · intro hme
          refine ⟨cursor, le_refl _, ?_⟩
          have hraw : rawValue <:+ jsSubstringSwap line (markerEndOf line name) cursor :=
            ⟨pre ++ ident ++ ['='], by simp [hpre]⟩
          exact (stripLeadingQuote_suffix rawValue).trans (hraw.trans (hcontent hme))
      · constructor
        · simp only []
          omega
        · intro hme
          exact ⟨cursor, le_refl _, (List.drop_suffix _ _).trans (hcontent hme)⟩
      · constructor
        · simp only []
          omega
        · exact htrim
      · exact ⟨hbase, htrim⟩
    | false =>
      simp only [Bool.false_eq_true, if_false] at h
      rcases analyzeAttrOnly_cases base
          (jsSubstringSwap line (markerEndOf line name) cursor) cursor
          (decide (line.get? (markerEndOf line name) = some ' ')) with
        ⟨ident, rawValue, pre, hm, hpre, hctx⟩ | ⟨i, hso, hctx⟩ | hctx <;>
        rw [hctx] at h <;> rw [← h]
      · constructor
        · simp only []
          omega
        · intro hme
          refine ⟨cursor, le_refl _, ?_⟩
          have hraw : rawValue <:+ jsSubstringSwap line (markerEndOf line name) cursor :=
            ⟨pre ++ ident ++ ['='], by simp [hpre]⟩
          exact (stripLeadingQuote_suffix rawValue).trans (hraw.trans (hcontent hme))
      · constructor
        · simp only []
          omega
        · intro hme
          exact ⟨cursor, le_refl _, (List.drop_suffix _ _).trans (hcontent hme)⟩
      · constructor
        · simp only []
          omega
        · exact htrim

/-- C3 witness: a concrete pipeline run (cursor inside `{{< fa >}}`, the
marker's only occurrence on the line, so the full-line `markerEnd` is at or
before the cursor) where the amended invariant holds. -/
theorem claim_C3_witness :
    ∃ ctx, locateAndClassify ("\x7b\x7b< fa >\x7d\x7d").toList 7 ("fa").toList false
        (fun _ => false) = some ctx ∧
      ctx.tokenStart ≤ (7 : Int) ∧
      markerEndOf ("\x7b\x7b< fa >\x7d\x7d").toList ("fa").toList ≤ 7 ∧
      ∃ p, p ≤ 7 ∧ ctx.typedText <:+ ("\x7b\x7b< fa >\x7d\x7d").toList.take p := by
  have hEq : locateAndClassify ("\x7b\x7b< fa >\x7d\x7d").toList 7 ("fa").toList false
      (fun _ => false) =
      some { fullContent := []
             contentStart := 7
             completionType := .attributeName
             typedText := []
             tokenStart := 7
             attributeName := none
             hasSpaceBeforeEnd := false
             needsLeadingSpace := false } := by decide
  have hall := claim_C3_amended _ _ 7 false _ _ hEq
  exact ⟨_, hEq, hall.1, by decide, hall.2 (by decide)⟩

/-- C4 counterexample: on the line `{{< fasize=2x >}}` with the cursor after
the space following `2x`, the primary branch fires (the attribute-value
regex fails on the trailing space and the first token contains `=`, so
`hasPrimaryValue` is false) and sets `needsLeadingSpace = true` even though
the non-empty token `size=2x` has already been typed. -/
theorem claim_C4_counterexample :
    (locateAndClassify ("\x7b\x7b< fasize=2x >\x7d\x7d").toList 14 ("fa").toList true
        (hasPrimaryValue [("size").toList] true)).map
      (fun ctx => (ctx.needsLeadingSpace, ctx.typedText)) =
    some (true, ("size=2x").toList) := by
  decide

/-- C4 (amended): `needsLeadingSpace` is true only when no space character
immediately follows the `markerEnd` the provider recomputes with its
full-line `lastIndexOf` — the last occurrence of the marker on the line,
which is the cursor's enclosing instance only when no later same-named
instance exists; outside the primary-value branch — which sets it to the
absence of that space regardless of what has been typed — it additionally
requires that the text fed to the classifier is all whitespace. -/
theorem claim_C4_amended (line name : List Char) (cursor : Nat) (hasArguments : Bool)
    (hasPrimary : List Char → Bool) (ctx : ShortcodeContext)
    (h : locateAndClassify line cursor name hasArguments hasPrimary = some ctx)
    (hn : ctx.needsLeadingSpace = true) :
    ¬ (line.get? (markerEndOf line name) = some ' ') ∧
      (ctx.completionType = .primary ∨ ctx.typedText.all jsSpace = true) := by
  cases hg : getShortcodeContext line cursor name with
  | none => simp [locateAndClassify, hg] at h
  | some base =>
    simp only [locateAndClassify, hg, Option.some.injEq] at h
    cases hasArguments with
    | true =>
      simp only [if_true] at h
      rcases analyzeShortcode_cases base
          (jsSubstringSwap line (markerEndOf line name) cursor) cursor
          (decide (line.get? (markerEndOf line name) = some ' ')) hasPrimary
          .primary with
        ⟨ident, rawValue, pre, hm, hpre, hctx⟩ | ⟨i, hso, hctx⟩ | hctx | hctx <;>
        rw [hctx] at h <;> rw [← h] at hn ⊢
      · simp at hn
      · simp at hn
      · simp at hn
      · simp only [] at hn
        have hsf : decide (line.get? (markerEndOf line name) = some ' ') = false := by
          cases hd : decide (line.get? (markerEndOf line name) = some ' ') with
          | false => rfl
          | true => rw [hd] at hn; simp at hn
        exact ⟨of_decide_eq_false hsf, Or.inl rfl⟩
    | false =>
      simp only [Bool.false_eq_true, if_false] at h
      rcases analyzeAttrOnly_cases base
          (jsSubstringSwap line (markerEndOf line name) cursor) cursor
          (decide (line.get? (markerEndOf line name) = some ' ')) with
        ⟨ident, rawValue, pre, hm, hpre, hctx⟩ | ⟨i, hso, hctx⟩ | hctx <;>
        rw [hctx] at h <;> rw [← h] at hn ⊢
      · simp at hn
      · simp only [Bool.and_eq_true, Bool.not_eq_true', decide_eq_true_eq] at hn
        obtain ⟨hsf, htn⟩ := hn
        refine ⟨of_decide_eq_false hsf, Or.inr ?_⟩
        exact all_drop_of_all (jsTrim_eq_nil_all htn)
      · simp only [Bool.and_eq_true, Bool.not_eq_true', decide_eq_true_eq] at hn
        obtain ⟨hsf, htn⟩ := hn
        refine ⟨of_decide_eq_false hsf, Or.inr ?_⟩
        simp [htn]

/-- C4 witness: a concrete pipeline run on `{{< fa>}}` (no space after the
marker, nothing typed) where `needsLeadingSpace` is true and the amended
conditions hold. -/
theorem claim_C4_witness :
    ∃ ctx, locateAndClassify ("\x7b\x7b< fa>\x7d\x7d").toList 6 ("fa").toList false
        (fun _ => false) = some ctx ∧ ctx.needsLeadingSpace = true ∧
      (¬ (("\x7b\x7b< fa>\x7d\x7d").toList.get?
            (markerEndOf ("\x7b\x7b< fa>\x7d\x7d").toList ("fa").toList) = some ' ') ∧
        (ctx.completionType = .primary ∨ ctx.typedText.all jsSpace = true)) := by
  have hEq : locateAndClassify ("\x7b\x7b< fa>\x7d\x7d").toList 6 ("fa").toList false
      (fun _ => false) =
      some { fullContent := []
             contentStart := 6
             completionType := .attributeName
             typedText := []
             tokenStart := 6
             attributeName := none
             hasSpaceBeforeEnd := false
             needsLeadingSpace := true } := by decide
  exact ⟨_, hEq, rfl, claim_C4_amended _ _ 6 false _ _ hEq rfl⟩

theorem strLt_zero_one (x y : List Char) : strLt ('0' :: x) ('1' :: y) = true := by
  rw [strLt, if_pos (by decide)]

theorem strLt_one_one (x y : List Char) : strLt ('1' :: x) ('1' :: y) = strLt x y := by
  rw [strLt, if_neg (by decide), if_pos rfl]

theorem mem_createEnum {values : List (List Char)} {ctx : ShortcodeContext}
    {defaultValue : Option (List Char)} {it : CompletionItem}
    (h : it ∈ createEnumValueCompletions values ctx defaultValue) :
    it.label ∈ values ∧
      it.sortText = (if some it.label = defaultValue then '0' else '1') :: it.label := by
  obtain ⟨v, hv, hf⟩ := List.mem_filterMap.mp h
  by_cases hc : (!(ctx.typedText.map Char.toLower).isEmpty &&
      !((ctx.typedText.map Char.toLower).isPrefixOf (v.map Char.toLower))) = true
  · rw [if_pos hc] at hf
    exact absurd hf (by simp)
  · rw [if_neg hc] at hf
    have hit := Option.some.inj hf
    constructor
    · rw [← hit]
      exact hv
    · rw [← hit]

/-- C5 counterexample: for the declared values `[b, a, c]` with default `c`
and nothing typed, the presentation order induced by the emitted sort keys
is `[c, a, b]` — the non-defaults rank lexically by value — whereas the
claimed order (default first, declared order otherwise preserved) is
`[c, b, a]`. -/
theorem claim_C5_counterexample :
    (rankBySortText (createEnumValueCompletions
        [("b").toList, ("a").toList, ("c").toList] ctx0 (some (("c").toList)))).map
      (fun i => i.label) =
      [("c").toList, ("a").toList, ("b").toList] ∧
    specEnumRanking [("b").toList, ("a").toList, ("c").toList] [] (some (("c").toList)) =
      [("c").toList, ("b").toList, ("a").toList] ∧
    ([("c").toList, ("a").toList, ("b").toList] : List (List Char)) ≠
      [("c").toList, ("b").toList, ("a").toList] := by
  refine ⟨by decide, by decide, by decide⟩

/-- C5 (amended): the emitted candidate array is the case-insensitive
prefix-filter of the declared values in declared order; the sort key marks
the default with `0` and the rest with `1`, so the default ranks strictly
before every non-default, and among non-defaults the sort-key order is the
lexicographic order of the values (not the declared order). -/
theorem claim_C5_amended (values : List (List Char)) (ctx : ShortcodeContext)
    (defaultValue : Option (List Char)) :
    ((createEnumValueCompletions values ctx defaultValue).map (fun i => i.label) =
      values.filter (fun v => (ctx.typedText.map Char.toLower).isEmpty ||
        (ctx.typedText.map Char.toLower).isPrefixOf (v.map Char.toLower))) ∧
    (∀ it ∈ createEnumValueCompletions values ctx defaultValue,
      ∀ jt ∈ createEnumValueCompletions values ctx defaultValue,
        some it.label = defaultValue → some jt.label ≠ defaultValue →
          strLt it.sortText jt.sortText = true) ∧
    (∀ it ∈ createEnumValueCompletions values ctx defaultValue,
      ∀ jt ∈ createEnumValueCompletions values ctx defaultValue,
        some it.label ≠ defaultValue → some jt.label ≠ defaultValue →
          strLt it.sortText jt.sortText = strLt it.label jt.label) := by
  refine ⟨?_, ?_, ?_⟩
  · induction values with
    | nil => rfl
    | cons v vs ih =>
      by_cases hc : (!(ctx.typedText.map Char.toLower).isEmpty &&
          !((ctx.typedText.map Char.toLower).isPrefixOf (v.map Char.toLower))) = true
      · have hkeep : ((ctx.typedText.map Char.toLower).isEmpty ||
            (ctx.typedText.map Char.toLower).isPrefixOf (v.map Char.toLower)) = false := by
          revert hc
          cases (ctx.typedText.map Char.toLower).isEmpty <;>
            cases (ctx.typedText.map Char.toLower).isPrefixOf (v.map Char.toLower) <;> simp
        simp only [createEnumValueCompletions, List.filterMap_cons, hc, if_true,
          List.filter_cons, hkeep] at ih ⊢
        simpa using ih
      · have hkeep : ((ctx.typedText.map Char.toLower).isEmpty ||
            (ctx.typedText.map Char.toLower).isPrefixOf (v.map Char.toLower)) = true := by
          revert hc
          cases (ctx.typedText.map Char.toLower).isEmpty <;>
            cases (ctx.typedText.map Char.toLower).isPrefixOf (v.map Char.toLower) <;> simp
        simp only [createEnumValueCompletions, List.filterMap_cons, hc, if_false,
          List.filter_cons, hkeep] at ih ⊢
        simpa using ih
  · intro it hit jt hjt hd hnd
    obtain ⟨-, hsi⟩ := mem_createEnum hit
    obtain ⟨-, hsj⟩ := mem_createEnum hjt
    rw [hsi, hsj, if_pos hd, if_neg hnd]
    exact strLt_zero_one _ _
  · intro it hit jt hjt hnd hnd2
    obtain ⟨-, hsi⟩ := mem_createEnum hit
    obtain ⟨-, hsj⟩ := mem_createEnum hjt
    rw [hsi, hsj, if_neg hnd, if_neg hnd2]
    exact strLt_one_one _ _

/-- C5 witness: for values `[on, off]` with default `off`, the filtered
array keeps declared order, and the default item ranks before the
non-default item by sort key. -/
theorem claim_C5_witness :
    ((createEnumValueCompletions [("on").toList, ("off").toList] ctx0
        (some (("off").toList))).map (fun i => i.label) =
      [("on").toList, ("off").toList]) ∧
    strLt (CompletionItem.mk (("off").toList) (some (("(default)").toList))
        (("0off").toList) (("off ").toList)).sortText
      (CompletionItem.mk (("on").toList) none (("1on").toList) (("on ").toList)).sortText =
      true := by
  constructor
  · exact (claim_C5_amended [("on").toList, ("off").toList] ctx0 (some (("off").toList))).1
  · exact (claim_C5_amended [("on").toList, ("off").toList] ctx0
        (some (("off").toList))).2.1 _ (by decide) _ (by decide) (by decide) (by decide)

theorem mem_brandColorItems {ctx : ShortcodeContext} {brandColors : List BrandColor}
    {it : CompletionItem} (h : it ∈ brandColorItems ctx brandColors) :
    ∃ bc, bc ∈ brandColors ∧ it.label = bc.name ∧ it.sortText = '0' :: bc.name ∧
      it.insertText = bc.value ++ (if ctx.hasSpaceBeforeEnd then [] else [' ']) := by
  obtain ⟨bc, hbc, hf⟩ := List.mem_filterMap.mp h
  by_cases hc : (!(ctx.typedText.map Char.toLower).isEmpty &&
      !((ctx.typedText.map Char.toLower).isPrefixOf (bc.name.map Char.toLower))) = true
  · rw [if_pos hc] at hf
    exact absurd hf (by simp)
  · rw [if_neg hc] at hf
    have hit := Option.some.inj hf
    exact ⟨bc, hbc, by rw [← hit], by rw [← hit], by rw [← hit]⟩

theorem mem_cssColorItems {ctx : ShortcodeContext} {it : CompletionItem}
    (h : it ∈ cssColorItems ctx) :
    ∃ color, color ∈ CSS_COLOR_VALUES ∧ it.label = color ∧ it.sortText = '1' :: color := by
  obtain ⟨color, hcv, hf⟩ := List.mem_filterMap.mp h
  by_cases hc : (!(ctx.typedText.map Char.toLower).isEmpty &&
      !((ctx.typedText.map Char.toLower).isPrefixOf (color.map Char.toLower))) = true
  · rw [if_pos hc] at hf
    exact absurd hf (by simp)
  · rw [if_neg hc] at hf
    have hit := Option.some.inj hf
    exact ⟨color, hcv, by rw [← hit], by rw [← hit]⟩

/-- C9: the Color synthesizer emits the brand-palette items first and then
the fixed CSS color table; every brand item's inserted text is the entry's
resolved value followed by the trailing separator — never the symbolic brand
name — and every brand item's sort key (`0`+name) ranks strictly before
every CSS item's sort key (`1`+color). -/
theorem claim_C9_brand_colors (ctx : ShortcodeContext) (brandColors : List BrandColor) :
    (createColorValueCompletions ctx brandColors =
      brandColorItems ctx brandColors ++ cssColorItems ctx) ∧
    (∀ it ∈ brandColorItems ctx brandColors, ∃ bc, bc ∈ brandColors ∧
      it.label = bc.name ∧ it.sortText = '0' :: bc.name ∧
      it.insertText = bc.value ++ (if ctx.hasSpaceBeforeEnd then [] else [' '])) ∧
    (∀ it ∈ brandColorItems ctx brandColors, ∀ jt ∈ cssColorItems ctx,
      strLt it.sortText jt.sortText = true) := by
  refine ⟨rfl, fun it hit => mem_brandColorItems hit, ?_⟩
  intro it hit jt hjt
  obtain ⟨bc, -, -, hsi, -⟩ := mem_brandColorItems hit
  obtain ⟨color, -, -, hsj⟩ := mem_cssColorItems hjt
  rw [hsi, hsj]
  exact strLt_zero_one _ _

/-- C9 witness: a concrete brand entry `accent = #ff0000` yields the insert
text `#ff0000 ` (the resolved value), and it ranks before the CSS color
`red`. -/
theorem claim_C9_witness :
    (∃ bc, bc ∈ [BrandColor.mk (("accent").toList) (("#ff0000").toList)] ∧
      (CompletionItem.mk (("accent").toList)
          (some (("Brand: #ff0000").toList)) (("0accent").toList)
          (("#ff0000 ").toList)).label = bc.name ∧
      (CompletionItem.mk (("accent").toList)
          (some (("Brand: #ff0000").toList)) (("0accent").toList)
          (("#ff0000 ").toList)).sortText = '0' :: bc.name ∧
      (CompletionItem.mk (("accent").toList)
          (some (("Brand: #ff0000").toList)) (("0accent").toList)
          (("#ff0000 ").toList)).insertText =
        bc.value ++ (if ctx0.hasSpaceBeforeEnd then [] else [' '])) ∧
    strLt (("0accent").toList) (("1red").toList) = true := by
  constructor
  · exact (claim_C9_brand_colors ctx0
      [BrandColor.mk (("accent").toList) (("#ff0000").toList)]).2.1 _ (by decide)
  · have h := (claim_C9_brand_colors ctx0
      [BrandColor.mk (("accent").toList) (("#ff0000").toList)]).2.2
      (CompletionItem.mk (("accent").toList) (some (("Brand: #ff0000").toList))
        (("0accent").toList) (("#ff0000 ").toList)) (by decide)
      (CompletionItem.mk (("red").toList) (some (("CSS color").toList))
        (("1red").toList) (("red ").toList)) (by decide)
    exact h

theorem mem_createFile {entries : List DirEntry} {ctx : ShortcodeContext}
    {exts : Option (List (List Char))} {it : CompletionItem}
    (h : it ∈ createFileCompletions entries ctx exts) :
    ∃ e, e ∈ entries ∧ ¬ (e.name.head? = some '.') ∧ it.label = e.name ∧
      it.detail = some (if e.isDirectory then ("Directory").toList else ("File").toList) ∧
      it.sortText = (if e.isDirectory then '0' else '1') :: e.name := by
  obtain ⟨e, he, hf⟩ := List.mem_filterMap.mp h
  by_cases h1 : e.name.head? = some '.'
  · rw [if_pos h1] at hf
    exact absurd hf (by simp)
  · rw [if_neg h1] at hf
    by_cases h2 : (!(fileFilterText ctx).isEmpty &&
        !((fileFilterText ctx).isPrefixOf (e.name.map Char.toLower))) = true
    · rw [if_pos h2] at hf
      exact absurd hf (by simp)
    · rw [if_neg h2] at hf
      by_cases h3 : extensionRejects exts e = true
      · rw [if_pos h3] at hf
        exact absurd hf (by simp)
      · rw [if_neg h3] at hf
        have hit := Option.some.inj hf
        exact ⟨e, he, h1, by rw [← hit], by rw [← hit], by rw [← hit]⟩

/-- C8: for the listing `[.git (dir), data.csv (file), img (dir)]` with
allow-list `[.csv]` and nothing typed, the synthesizer's ranked candidates
are exactly `img` (directory) then `data.csv` (file); in general every
hidden entry (leading dot) is excluded, a directory passing the name filter
is emitted regardless of the extension allow-list, and every directory item
ranks strictly before every file item. -/
theorem claim_C8_file_completions :
    ((rankBySortText (createFileCompletions
        [DirEntry.mk ((".git").toList) true, DirEntry.mk (("data.csv").toList) false,
         DirEntry.mk (("img").toList) true]
        ctx0 (some [(".csv").toList]))).map (fun i => (i.label, i.detail)) =
      [((("img").toList), some (("Directory").toList)),
       ((("data.csv").toList), some (("File").toList))]) ∧
    (∀ entries ctx exts, ∀ it ∈ createFileCompletions entries ctx exts,
      ¬ (it.label.head? = some '.')) ∧
    (∀ entries ctx exts (entry : DirEntry), entry ∈ entries → entry.isDirectory = true →
      ¬ (entry.name.head? = some '.') →
      ((fileFilterText ctx).isEmpty ||
        (fileFilterText ctx).isPrefixOf (entry.name.map Char.toLower)) = true →
      ∃ it, it ∈ createFileCompletions entries ctx exts ∧ it.label = entry.name) ∧
    (∀ entries ctx exts, ∀ it ∈ createFileCompletions entries ctx exts,
      ∀ jt ∈ createFileCompletions entries ctx exts,
      it.detail = some (("Directory").toList) → jt.detail = some (("File").toList) →
      strLt it.sortText jt.sortText = true) := by
  refine ⟨by decide, ?_, ?_, ?_⟩
  · intro entries ctx exts it hit
    obtain ⟨e, -, hdot, hlab, -, -⟩ := mem_createFile hit
    rw [hlab]
    exact hdot
  · intro entries ctx exts entry hentry hdir hdot hfilter
    have h2 : (!(fileFilterText ctx).isEmpty &&
        !((fileFilterText ctx).isPrefixOf (entry.name.map Char.toLower))) = false := by
      revert hfilter
      cases (fileFilterText ctx).isEmpty <;>
        cases (fileFilterText ctx).isPrefixOf (entry.name.map Char.toLower) <;> simp
    have h3 : extensionRejects exts entry = false := by
      simp [extensionRejects, hdir]
    refine ⟨{ label := entry.name
              detail := some (if entry.isDirectory then ("Directory").toList
                else ("File").toList)
              sortText := (if entry.isDirectory then '0' else '1') :: entry.name
              insertText := if entry.isDirectory then
                  (if ctx.needsLeadingSpace then [' '] else []) ++ filePathPre ctx ++
                    entry.name ++ ['/']
                else
                  (if ctx.needsLeadingSpace then [' '] else []) ++ filePathPre ctx ++
                    entry.name ++ (if ctx.hasSpaceBeforeEnd then [] else [' ']) },
      List.mem_filterMap.mpr ⟨entry, hentry, ?_⟩, rfl⟩
    simp only [if_neg hdot, h2, h3, Bool.false_eq_true, if_false]
  · intro entries ctx exts it hit jt hjt hdi hdj
    obtain ⟨e, -, -, -, hdeti, hsi⟩ := mem_createFile hit
    obtain ⟨e2, -, -, -, hdetj, hsj⟩ := mem_createFile hjt
    have hei : e.isDirectory = true := by
      by_contra hne
      rw [hdeti] at hdi
      have := Option.some.inj hdi
      rw [if_neg hne] at this
      exact absurd this (by decide)
    have hej : e2.isDirectory = false := by
      by_contra hne
      rw [hdetj] at hdj
      have h4 := Option.some.inj hdj
      rw [if_pos (by revert hne; cases e2.isDirectory <;> simp)] at h4
      exact absurd h4 (by decide)
    rw [hsi, hsj, hei, hej]
    simpa using strLt_zero_one e.name e2.name

/-- C8 witness: the concrete `img` item is not hidden, and the general
parts instantiated at the concrete listing agree with the concrete order. -/
theorem claim_C8_witness :
    (¬ ((CompletionItem.mk (("img").toList) (some (("Directory").toList))
        (("0img").toList) (("img/").toList)).label.head? = some '.')) ∧
    (∃ it, it ∈ createFileCompletions
        [DirEntry.mk ((".git").toList) true, DirEntry.mk (("data.csv").toList) false,
         DirEntry.mk (("img").toList) true] ctx0 (some [(".csv").toList]) ∧
      it.label = ("img").toList) ∧
    strLt (("0img").toList) (("1data.csv").toList) = true := by
  refine ⟨?_, ?_, ?_⟩
  · exact claim_C8_file_completions.2.1
      [DirEntry.mk ((".git").toList) true, DirEntry.mk (("data.csv").toList) false,
       DirEntry.mk (("img").toList) true] ctx0 (some [(".csv").toList]) _ (by decide)
  · exact claim_C8_file_completions.2.2.1
      [DirEntry.mk ((".git").toList) true, DirEntry.mk (("data.csv").toList) false,
       DirEntry.mk (("img").toList) true] ctx0 (some [(".csv").toList])
      (DirEntry.mk (("img").toList) true) (by decide) rfl (by decide) (by decide)
  · exact claim_C8_file_completions.2.2.2
      [DirEntry.mk ((".git").toList) true, DirEntry.mk (("data.csv").toList) false,
       DirEntry.mk (("img").toList) true] ctx0 (some [(".csv").toList])
      (CompletionItem.mk (("img").toList) (some (("Directory").toList))
        (("0img").toList) (("img/").toList)) (by decide)
      (CompletionItem.mk (("data.csv").toList) (some (("File").toList))
        (("1data.csv").toList) (("data.csv ").toList)) (by decide) rfl rfl

theorem addToCache_below {V : Type _} {cache : List (List Char × V)} {key : List Char}
    {v : V} {m : Nat} (h : cache.length < m)
    (hfresh : ∀ p ∈ cache, p.1 ≠ key) :
    addToCache cache key v m = cache ++ [(key, v)] := by
  have h1 : ¬ cache.length ≥ m := by omega
  have h2 : cache.any (fun p => decide (p.1 = key)) = false := by
    rw [List.any_eq_false]
    intro p hp
    simpa using hfresh p hp
  rw [addToCache]
  simp only [h1, if_false, mapSet, h2, Bool.false_eq_true, if_false]

theorem insertAll_fold_fresh {V : Type _} {m : Nat} :
    ∀ (pairs : List (List Char × V)) (cache : List (List Char × V)),
      cache.length + pairs.length ≤ m →
      (cache.map Prod.fst ++ pairs.map Prod.fst).Nodup →
      pairs.foldl (fun c p => addToCache c p.1 p.2 m) cache = cache ++ pairs := by
  intro pairs
  induction pairs with
  | nil => intro cache _ _; simp
  | cons p ps ih =>
    intro cache hlen hnodup
    have hmid : (p.1 :: (cache.map Prod.fst ++ ps.map Prod.fst)).Nodup := by
      rw [← List.nodup_middle]
      simpa using hnodup
    have hfresh : ∀ q ∈ cache, q.1 ≠ p.1 := by
      intro q hq
      have hnm := hmid.not_mem
      intro hcontra
      exact hnm (by
        rw [← hcontra]
        exact List.mem_append_left _ (List.mem_map_of_mem Prod.fst hq))
    have hstep : addToCache cache p.1 p.2 m = cache ++ [p] := by
      have h9 : addToCache cache p.1 p.2 m = cache ++ [(p.1, p.2)] :=
        addToCache_below (by simp at hlen; omega) hfresh
      simpa using h9
    rw [List.foldl_cons, hstep, ih (cache ++ [p]) (by simp at hlen ⊢; omega) (by
      simp only [List.map_append, List.map_cons, List.map_nil, List.append_assoc,
        List.nil_append, List.singleton_append]
      simpa using hnodup)]
    simp

theorem mapLookup_eq_none_of_not_mem {V : Type _} {m : List (List Char × V)}
    {key : List Char} (h : key ∉ m.map Prod.fst) : mapLookup m key = none := by
  induction m with
  | nil => rfl
  | cons p rest ih =>
    rw [List.map_cons, List.mem_cons] at h
    push_neg at h
    rw [mapLookup, if_neg (fun hc => h.1 hc.symm)]
    exact ih h.2

theorem mapLookup_of_mem_nodup {V : Type _} {m : List (List Char × V)}
    {k : List Char} {v : V} (hnodup : (m.map Prod.fst).Nodup) (h : (k, v) ∈ m) :
    mapLookup m k = some v := by
  induction m with
  | nil => simp at h
  | cons p rest ih =>
    rw [List.map_cons, List.nodup_cons] at hnodup
    rcases List.mem_cons.mp h with heq | hmem
    · rw [← heq, mapLookup, if_pos rfl]
    · have hk : p.1 ≠ k := by
        intro hc
        apply hnodup.1
        rw [hc]
        exact List.mem_map_of_mem Prod.fst hmem
      rw [mapLookup, if_neg hk]
      exact ih hnodup.2 hmem

theorem mapDelete_cons_self {V : Type _} {k0 : List Char} {v0 : V}
    {tail : List (List Char × V)} (hfresh : ∀ p ∈ tail, p.1 ≠ k0) :
    mapDelete ((k0, v0) :: tail) k0 = tail := by
  rw [mapDelete, List.filter_cons]
  have hc : (!decide ((k0, v0).1 = k0)) = false := by simp
  rw [hc]
  simp only [Bool.false_eq_true, if_false]
  exact List.filter_eq_self.mpr (fun p hp => by simpa using hfresh p hp)

/-- C7 counterexample: with capacity 1, inserting the empty-string key and
then a second distinct key does not evict the earliest-inserted key — the
`if (firstKey)` truthiness guard skips eviction for the empty string — so
the earliest key is still retrievable and the cache exceeds its capacity. -/
theorem claim_C7_counterexample :
    mapLookup (insertAll [(([] : List Char), (10 : Nat)), ([('a' : Char)], 20)] 1) [] =
      some 10 ∧
    (insertAll [(([] : List Char), (10 : Nat)), ([('a' : Char)], 20)] 1).length = 2 := by
  decide

/-- C7 (amended): for capacity `N ≥ 1` and `N+1` insertions of distinct
keys whose earliest key is not the empty string, the cache ends as exactly
the last `N` entries: the earliest key is no longer retrievable, the other
`N` keys map to their stored values, and at capacity the insert first drops
the oldest entry and only then inserts (`addToCache = mapSet ∘ drop 1`). -/
theorem claim_C7_amended {V : Type _} (pairs : List (List Char × V)) (N : Nat)
    (hN : 1 ≤ N) (hlen : pairs.length = N + 1)
    (hnodup : (pairs.map Prod.fst).Nodup)
    (hhead : ∀ k v, pairs.head? = some (k, v) → k ≠ []) :
    insertAll pairs N = pairs.drop 1 ∧
    (∀ k v, pairs.head? = some (k, v) → mapLookup (insertAll pairs N) k = none) ∧
    (∀ q ∈ pairs.drop 1, mapLookup (insertAll pairs N) q.1 = some q.2) ∧
    (∀ (cache : List (List Char × V)) (key : List Char) (v : V),
      cache.length ≥ N → (cache.map Prod.fst).Nodup →
      (∀ k0 v0, cache.head? = some (k0, v0) → k0 ≠ []) →
      addToCache cache key v N = mapSet (cache.drop 1) key v) := by
  have hstruct : ∀ (cache : List (List Char × V)) (key : List Char) (v : V),
      cache.length ≥ N → (cache.map Prod.fst).Nodup →
      (∀ k0 v0, cache.head? = some (k0, v0) → k0 ≠ []) →
      addToCache cache key v N = mapSet (cache.drop 1) key v := by
    intro cache key v hc hcn hck
    cases cache with
    | nil => simp at hc; omega
    | cons p tail =>
      obtain ⟨k0, v0⟩ := p
      have hk0 : k0 ≠ [] := hck k0 v0 rfl
      rw [List.map_cons, List.nodup_cons] at hcn
      have hcn1 : k0 ∉ List.map Prod.fst tail := hcn.1
      have hfresh : ∀ q ∈ tail, q.1 ≠ k0 := by
        intro q hq hcontra
        exact hcn1 (hcontra ▸ List.mem_map_of_mem Prod.fst hq)
      rw [addToCache]
      simp only [hc, if_true, List.head?_cons, hk0, if_false]
      rw [mapDelete_cons_self hfresh]
      rfl
  cases pairs with
  | nil => simp at hlen
  | cons p0 rest =>
    have hrlen : rest.length = N := by simpa using hlen
    have hrne : rest ≠ [] := by
      intro hc
      rw [hc] at hrlen
      simp at hrlen
      omega
    have hk0 : p0.1 ≠ [] := hhead p0.1 p0.2 rfl
    rw [List.map_cons, List.nodup_cons] at hnodup
    have hsplit : rest.dropLast ++ [rest.getLast hrne] = rest :=
      List.dropLast_append_getLast hrne
    have hmain : insertAll (p0 :: rest) N = rest := by
      rw [insertAll, List.foldl_cons]
      have hstep0 : addToCache [] p0.1 p0.2 N = [p0] := by
        have h9 : addToCache ([] : List (List Char × V)) p0.1 p0.2 N =
            ([] : List (List Char × V)) ++ [(p0.1, p0.2)] :=
          addToCache_below (by simpa using hN) (by simp)
        simpa using h9
      rw [hstep0, ← hsplit, List.foldl_append]
      have hfrontlen : rest.dropLast.length = N - 1 := by
        rw [List.length_dropLast, hrlen]
      have hfront : rest.dropLast.foldl (fun c p => addToCache c p.1 p.2 N) [p0] =
          p0 :: rest.dropLast := by
        have hnd : (([p0] : List (List Char × V)).map Prod.fst ++
            rest.dropLast.map Prod.fst).Nodup := by
          have hsub : List.Sublist (p0.1 :: rest.dropLast.map Prod.fst)
              (p0.1 :: rest.map Prod.fst) :=
            List.Sublist.cons₂ _ ((List.dropLast_sublist rest).map Prod.fst)
          have hful : (p0.1 :: rest.map Prod.fst).Nodup :=
            List.nodup_cons.mpr hnodup
          simpa using hful.sublist hsub
        have h9 : rest.dropLast.foldl (fun c p => addToCache c p.1 p.2 N) [p0] =
            [p0] ++ rest.dropLast :=
          insertAll_fold_fresh rest.dropLast [p0] (by simp; omega) hnd
        simpa using h9
      rw [hfront, List.foldl_cons, List.foldl_nil]
      have hlast : addToCache (p0 :: rest.dropLast) (rest.getLast hrne).1
          (rest.getLast hrne).2 N = rest.dropLast ++ [rest.getLast hrne] := by
        have hcap : (p0 :: rest.dropLast).length ≥ N := by simp [hfrontlen]; omega
        have hnd2 : ((p0 :: rest.dropLast).map Prod.fst).Nodup := by
          have hsub : List.Sublist (p0.1 :: rest.dropLast.map Prod.fst)
              (p0.1 :: rest.map Prod.fst) :=
            List.Sublist.cons₂ _ ((List.dropLast_sublist rest).map Prod.fst)
          have hful : (p0.1 :: rest.map Prod.fst).Nodup :=
            List.nodup_cons.mpr hnodup
          simpa using hful.sublist hsub
        rw [hstruct (p0 :: rest.dropLast) _ _ hcap hnd2
          (fun k0 v0 h => by
            simp only [List.head?_cons, Option.some.injEq] at h
            have hpk : p0.1 = k0 := congrArg Prod.fst h
            rw [← hpk]
            exact hk0)]
        have hlfresh : ((rest.dropLast).map Prod.fst).any
            (fun kk => decide (kk = (rest.getLast hrne).1)) = false := by
          have hrn : (rest.map Prod.fst).Nodup := hnodup.2
          rw [← hsplit, List.map_append] at hrn
          simp only [List.map_cons, List.map_nil] at hrn
          rw [List.nodup_append] at hrn
          rw [List.any_eq_false]
          intro kk hkk
          have := hrn.2.2 hkk
          simpa using this
        rw [List.drop_one, List.tail_cons, mapSet]
        have hany : (rest.dropLast.any
            (fun p => decide (p.1 = (rest.getLast hrne).1))) = false := by
          rw [List.any_eq_false]
          intro p hp
          have : ¬ p.1 = (rest.getLast hrne).1 := by
            have := List.any_eq_false.mp hlfresh p.1 (List.mem_map_of_mem Prod.fst hp)
            simpa using this
          simpa using this
        rw [if_neg (by simp [hany])]
      rw [hlast, hsplit]
    refine ⟨by rw [hmain, List.drop_one, List.tail_cons], ?_, ?_, hstruct⟩
    · intro k v hkv
      simp only [List.head?_cons, Option.some.injEq] at hkv
      rw [hmain]
      apply mapLookup_eq_none_of_not_mem
      have hpk : p0.1 = k := congrArg Prod.fst hkv
      rw [← hpk]
      exact hnodup.1
    · intro q hq
      rw [List.drop_one, List.tail_cons] at hq
      rw [hmain]
      exact mapLookup_of_mem_nodup hnodup.2 hq

/-- C7 witness: capacity 1, inserting keys `x` then `y` evicts exactly `x`
and keeps `y` retrievable. -/
theorem claim_C7_witness :
    insertAll [([('x' : Char)], (1 : Nat)), ([('y' : Char)], 2)] 1 =
      [([('y' : Char)], 2)] ∧
    mapLookup (insertAll [([('x' : Char)], (1 : Nat)), ([('y' : Char)], 2)] 1)
      [('x' : Char)] = none ∧
    mapLookup (insertAll [([('x' : Char)], (1 : Nat)), ([('y' : Char)], 2)] 1)
      [('y' : Char)] = some 2 := by
  have hh : ∀ (k : List Char) (v : Nat),
      ([([('x' : Char)], (1 : Nat)), ([('y' : Char)], 2)].head? = some (k, v)) → k ≠ [] := by
    intro k v h
    simp only [List.head?_cons, Option.some.injEq, Prod.mk.injEq] at h
    rw [← h.1]
    decide
  have h := claim_C7_amended [([('x' : Char)], (1 : Nat)), ([('y' : Char)], 2)] 1
    (le_refl 1) rfl (by decide) hh
  exact ⟨h.1, h.2.1 [('x' : Char)] 1 rfl, h.2.2.1 ([('y' : Char)], 2) (by decide)⟩

theorem frontStep_inv (keyParts : List (List Char)) (valueKey : List Char)
    (st : FMState) (line : List Char)
    (h : st.values = [] ∧ (st.inTarget = true → st.stopped = true)) :
    (frontStep keyParts valueKey st line).values = [] ∧
      ((frontStep keyParts valueKey st line).inTarget = true →
        (frontStep keyParts valueKey st line).stopped = true) := by
  by_cases hstop : st.stopped = true
  · simp only [frontStep, hstop, if_true]
    exact ⟨h.1, fun _ => trivial⟩
  · have hstop2 : st.stopped = false := by
      revert hstop
      cases st.stopped <;> simp
    have hnt : st.inTarget = false := by
      rcases Bool.eq_false_or_eq_true st.inTarget with h2 | h2
      · exact absurd (h.2 h2) (by rw [hstop2]; simp)
      · exact h2
    by_cases hhdr : (st.sectionDepth < keyParts.length &&
        headerMatches (keyParts.getD st.sectionDepth []) (jsTrimStart line)) = true
    · by_cases hdeq : st.sectionDepth + 1 = keyParts.length
      · have htr : jsTrimStart line ≠ [] := by
          have hp := (Bool.and_eq_true .. |>.mp hhdr).2
          rw [headerMatches, Bool.and_eq_true] at hp
          have hpre := List.isPrefixOf_iff_prefix.mp hp.1
          intro hc
          rw [hc] at hpre
          have hle := hpre.length_le
          simp at hle
        simp only [frontStep, hstop2, Bool.false_eq_true, if_false, hhdr, if_true,
          hdeq, lt_irrefl, and_false, false_and, le_refl, and_true, true_and, ne_eq,
          htr, not_false_eq_true, if_true]
        simp [htr, h.1]
      · simp only [frontStep, hstop2, Bool.false_eq_true, if_false, hhdr, if_true,
          if_neg hdeq]
        simp [hnt, h.1]
    · have hhdr2 : (st.sectionDepth < keyParts.length &&
          headerMatches (keyParts.getD st.sectionDepth []) (jsTrimStart line)) = false := by
        revert hhdr
        cases (st.sectionDepth < keyParts.length &&
          headerMatches (keyParts.getD st.sectionDepth []) (jsTrimStart line)) <;> simp
      simp only [frontStep, hstop2, Bool.false_eq_true, if_false, hhdr2]
      simp [hnt, h.1]

theorem foldl_frontStep_empty (keyParts : List (List Char)) (valueKey : List Char)
    (lines : List (List Char)) :
    ∀ st : FMState, st.values = [] ∧ (st.inTarget = true → st.stopped = true) →
      (lines.foldl (frontStep keyParts valueKey) st).values = [] := by
  induction lines with
  | nil => intro st h; exact h.1
  | cons l ls ih =>
    intro st h
    rw [List.foldl_cons]
    exact ih (frontStep keyParts valueKey st l) (frontStep_inv keyParts valueKey st l h)

theorem parseFrontmatterValues_empty (text key : List Char)
    (valuePath : Option (List Char)) : parseFrontmatterValues text key valuePath = [] := by
  rw [parseFrontmatterValues]
  split
  · split
    · rfl
    · exact foldl_frontStep_empty _ _ _ _ ⟨rfl, by simp⟩
  · rfl

/-- C6: the claim is right and the code is wrong.  The spec-provider
extractor `parseFrontmatterValues` returns the empty list for every input:
on the very line that matches the final section header and sets
`inTargetSection`, the exit check `indent <= currentIndent && trimmed
nonempty` fires (the header line itself has `indent = currentIndent`), so
the loop breaks before reading a single value.  In particular it returns
`[]` on the claim's document, while the acronyms-provider implementation of
the same extraction (src/acronyms.ts) yields exactly `[API, HTML]` in
declaration order, stopping at the `filters` boundary. -/
theorem claim_C6_section_extractor :
    (∀ text key valuePath, parseFrontmatterValues text key valuePath = []) ∧
    parseFrontmatterValues c6doc (("acronyms.keys").toList)
      (some (("shortname").toList)) = [] ∧
    (parseAcronymsFromFrontmatter c6doc).map (fun a => a.shortname) =
      [("API").toList, ("HTML").toList] := by
  refine ⟨parseFrontmatterValues_empty, parseFrontmatterValues_empty _ _ _, by decide⟩

theorem pushIfComplete_inv {c : Option (List Char) × Option (List Char)}
    {acc : List AcronymDefinition}
    (h : ∀ a ∈ acc, a.shortname ≠ [] ∧ a.longname ≠ []) :
    ∀ a ∈ pushIfComplete c acc, a.shortname ≠ [] ∧ a.longname ≠ [] := by
  rcases c with ⟨so, lo⟩
  cases so with
  | none => exact h
  | some s =>
    cases lo with
    | none => exact h
    | some l =>
      rw [pushIfComplete]
      by_cases hc : (!s.isEmpty && !l.isEmpty) = true
      · rw [if_pos hc]
        intro a ha
        rcases List.mem_append.mp ha with hold | hnew
        · exact h a hold
        · have ha2 : a = AcronymDefinition.mk s l := by simpa using hnew
          rw [Bool.and_eq_true, Bool.not_eq_true', Bool.not_eq_true'] at hc
          constructor
          · rw [ha2]
            simpa using (List.isEmpty_eq_false.mp hc.1 : s ≠ [])
          · rw [ha2]
            simpa using (List.isEmpty_eq_false.mp hc.2 : l ≠ [])
      · rw [if_neg hc]
        exact h

theorem acrStep_inv {st : AcrState} {line : List Char}
    (h : ∀ a ∈ st.acronyms, a.shortname ≠ [] ∧ a.longname ≠ []) :
    ∀ a ∈ (acrStep st line).acronyms, a.shortname ≠ [] ∧ a.longname ≠ [] := by
  rw [acrStep]
  by_cases hstop : st.stopped = true
  · rw [if_pos hstop]
    exact h
  · rw [if_neg hstop]
    by_cases hbrk : isBreakLine line = true
    · rw [if_pos hbrk]
      exact h
    · rw [if_neg hbrk]
      cases hm : listItemMatch line with
      | some cap => exact pushIfComplete_inv h
      | none =>
        by_cases hd : dashOnlyMatch line = true
        · rw [if_pos hd]
          exact pushIfComplete_inv h
        · rw [if_neg hd]
          cases hs : contMatch (("shortname").toList) line with
          | some cap => exact h
          | none =>
            cases hl : contMatch (("longname").toList) line with
            | some cap => exact h
            | none => exact h

theorem foldl_acrStep_inv (lines : List (List Char)) :
    ∀ st : AcrState, (∀ a ∈ st.acronyms, a.shortname ≠ [] ∧ a.longname ≠ []) →
      ∀ a ∈ (lines.foldl acrStep st).acronyms, a.shortname ≠ [] ∧ a.longname ≠ [] := by
  induction lines with
  | nil => intro st h; exact h
  | cons l ls ih =>
    intro st h
    rw [List.foldl_cons]
    exact ih (acrStep st l) (acrStep_inv h)

/-- C10: every acronym the frontmatter parser emits has both a non-empty
shortname and a non-empty longname — a list item carrying a shortname but
no longname is never appended and so produces no completion candidate; in
particular a document whose only item has just a shortname parses to the
empty list. -/
theorem claim_C10_needs_both_fields :
    (∀ text : List Char, ∀ a ∈ parseAcronymsFromFrontmatter text,
      a.shortname ≠ [] ∧ a.longname ≠ []) ∧
    parseAcronymsFromFrontmatter c10doc = [] := by
  constructor
  · intro text a ha
    rw [parseAcronymsFromFrontmatter] at ha
    split at ha
    · split at ha
      · simp at ha
      · simp only [] at ha
        split at ha
        · simp at ha
        · split at ha
          · simp at ha
          · exact pushIfComplete_inv (foldl_acrStep_inv _ _ (by simp)) a ha
    · simp at ha
  · decide

/-- C10 witness: the API entry of the example document is emitted and has
both fields non-empty. -/
theorem claim_C10_witness :
    AcronymDefinition.mk (("API").toList)
        (("Application Programming Interface").toList) ∈
      parseAcronymsFromFrontmatter c6doc ∧
    ((AcronymDefinition.mk (("API").toList)
        (("Application Programming Interface").toList)).shortname ≠ [] ∧
      (AcronymDefinition.mk (("API").toList)
        (("Application Programming Interface").toList)).longname ≠ []) := by
  have hm : AcronymDefinition.mk (("API").toList)
      (("Application Programming Interface").toList) ∈
      parseAcronymsFromFrontmatter c6doc := by decide
  exact ⟨hm, claim_C10_needs_both_fields.1 c6doc _ hm⟩
